import Mathlib

/-!
# Verification of the Stegohub steganographic codec core

A shallow embedding, in Lean 4, of the steganography engine of the
Stegohub repository: the bit-plane (LSB) image codec, the sample-domain
audio codec with magic+length header, the capacity gates of the DCT and
DWT image codecs, and the encode/decode dispatcher with auto-detection.

Conventions of the embedding:

* A JavaScript string is modelled as its list of UTF-16 code units
  (`List Nat`, each unit `< 65536`); the audio codec, which converts the
  message through `TextEncoder`, is modelled over the string's Unicode
  code points.
* An RGBA pixel buffer (`Uint8ClampedArray`) is a `List Nat` of bytes.
* Audio channel data (`Float32Array`) is a `List ℚ`; every bit-exact
  numeric step of the source (rounding, clamping, integer shifts, masks)
  is exact in ℚ/ℤ, matching the IEEE doubles of the source on the
  integer-valued quantities the codec manipulates.
* Fallible operations return `Except String α` carrying the source's
  error message strings.
-/

set_option maxRecDepth 8000
set_option maxHeartbeats 1000000

/-! ## Bit-string utilities (from `steganography.ts` and `audio.ts`) -/

/-- Bit `k` (0 = least significant) of the natural number `v`. -/
def bitAt (v k : Nat) : Bool := decide (v / 2 ^ k % 2 = 1)

/-- The low `w` bits of `v`, most significant first. -/
def bitsOfWidth : Nat → Nat → List Bool
  | 0, _ => []
  | k + 1, v => bitAt v k :: bitsOfWidth k v

/-- Digit counter for `jsBitWidth`, fuelled for structural recursion
(the fuel `v` always suffices because a number is halved at most `v`
times before reaching zero). -/
def jsBitWidthAux : Nat → Nat → Nat
  | 0, _ => 0
  | f + 1, n => if n = 0 then 0 else jsBitWidthAux f (n / 2) + 1

/-- Number of binary digits of `v` as printed by JavaScript
`v.toString(2)` (one digit for `0`). -/
def jsBitWidth (v : Nat) : Nat := if v = 0 then 1 else jsBitWidthAux v v

/-- `char.charCodeAt(0).toString(2).padStart(8, "0")` from
`stringToBinary` in `steganography.ts` (also `bytes[i].toString(2).padStart(8, '0')`
in `bytesToBits` of `audio.ts`): the binary digits of the code with no
leading zeros, left-padded with zeros to at least eight digits. -/
def charToBits (c : Nat) : List Bool := bitsOfWidth (max 8 (jsBitWidth c)) c

/-- `stringToBinary` from `steganography.ts`: concatenate the padded
binary expansion of every UTF-16 code unit. -/
def stringToBinary (s : List Nat) : List Bool := s.flatMap charToBits

/-- Value of a bit string read most-significant-bit first
(JavaScript `parseInt(bits, 2)`). -/
def bitsVal (l : List Bool) : Nat :=
  l.foldl (fun a b => 2 * a + (if b then 1 else 0)) 0

/-- Split a bit string into chunks of eight, the last chunk possibly
shorter (the regex `/.{1,8}/g` of `binaryToString`, and the byte loop of
`bitsToBytes`). -/
def chunk8 : List Bool → List (List Bool)
  | [] => []
  | b0 :: b1 :: b2 :: b3 :: b4 :: b5 :: b6 :: b7 :: rest =>
      [b0, b1, b2, b3, b4, b5, b6, b7] :: chunk8 rest
  | l => [l]

/-- `binaryToString` from `steganography.ts`: cut the bit string into
chunks of up to eight bits and turn each chunk into one character code
via `parseInt(byte, 2)` / `String.fromCharCode`. -/
def binaryToString (l : List Bool) : List Nat := (chunk8 l).map bitsVal

/-- The sentinel `END_MARKER = "<<<END>>>"` of `steganography.ts`,
as UTF-16 code units. -/
def END_MARKER : List Nat := [60, 60, 60, 69, 78, 68, 62, 62, 62]

/-! ## The LSB image codec (`encodeLSB` / `decodeLSB`) -/

/-- `(data[i] & 0xFE) | bit` from `encodeLSB`. -/
def setLSB (d : Nat) (b : Bool) : Nat :=
  d &&& 254 ||| (if b then 1 else 0)

/-- `data[i] & 1` from `decodeLSB`, as a `Bool`. -/
def lsbOf (d : Nat) : Bool := decide (d % 2 = 1)

/-- The embedding loop of `encodeLSB`: walk the pixel buffer with its
byte index, skip every fourth byte (alpha), and replace the least
significant bit of each remaining byte with the next message bit until
the message is exhausted. -/
def embedLoop : List Nat → Nat → List Bool → List Nat
  | [], _, _ => []
  | d :: rest, i, bits =>
      if i % 4 = 3 then d :: embedLoop rest (i + 1) bits
      else
        match bits with
        | [] => d :: embedLoop rest (i + 1) []
        | b :: bs => setLSB d b :: embedLoop rest (i + 1) bs

/-- The extraction loop of `decodeLSB`: the least significant bit of
every non-alpha byte, in scan order. -/
def extractLoop : List Nat → Nat → List Bool
  | [], _ => []
  | d :: rest, i =>
      if i % 4 = 3 then extractLoop rest (i + 1)
      else lsbOf d :: extractLoop rest (i + 1)

/-- Number of non-alpha (eligible) byte positions of the buffer when the
scan starts at byte index `i`. -/
def eligCount : List Nat → Nat → Nat
  | [], _ => 0
  | _ :: rest, i => (if i % 4 = 3 then 0 else 1) + eligCount rest (i + 1)

/-- Eligible byte count of a whole RGBA buffer: every byte except each
fourth (alpha) byte. -/
def eligibleCount (data : List Nat) : Nat := eligCount data 0

/-- JavaScript `message.indexOf(END_MARKER)` on a list of character
codes: the first index at which the sentinel occurs, if any. -/
def firstMarkerIdx : List Nat → Option Nat
  | [] => none
  | c :: t =>
      if END_MARKER.isPrefixOf (c :: t) then some 0
      else (firstMarkerIdx t).map (fun i => i + 1)

/-- `encodeLSB` from `steganography.ts`, at the pixel-buffer level (the
canvas round trip through a PNG data URL is lossless and is omitted):
frame the message with the sentinel, reject the message if its bit
count exceeds the whole buffer length, and otherwise run the embedding
loop. -/
def encodeLSB (data message : List Nat) : Except String (List Nat) :=
  let binaryMessage := stringToBinary (message ++ END_MARKER)
  if binaryMessage.length > data.length then
    .error "Message too large for this image"
  else
    .ok (embedLoop data 0 binaryMessage)

/-- `decodeLSB` from `steganography.ts`: extract the eligible LSB
stream, chunk it into character codes, and return the part before the
first occurrence of the sentinel, failing when the sentinel is absent. -/
def decodeLSB (data : List Nat) : Except String (List Nat) :=
  let message := binaryToString (extractLoop data 0)
  match firstMarkerIdx message with
  | none => .error "No hidden message found in this image"
  | some endIndex => .ok (message.take endIndex)

/-! ## Capacity gates of the DCT and DWT image codecs -/

/-- `Math.floor(width / 8) * Math.floor(height / 8)` from `encodeDCT`:
the number of 8×8 blocks in one channel. -/
def dctBlockCount (w h : Nat) : Nat := (w / 8) * (h / 8)

/-- The capacity gate of `encodeDCT`: the framed message is accepted
exactly when its bit count is at most the single-channel block count. -/
def encodeDCTAccepts (w h : Nat) (message : List Nat) : Bool :=
  decide ((stringToBinary (message ++ END_MARKER)).length ≤ dctBlockCount w h)

/-- `Math.floor((width * height) / 16)` from `encodeDWT`: the value the
source uses as the DWT capacity. -/
def dwtCapacity (w h : Nat) : Nat := w * h / 16

/-- The capacity gate of `encodeDWT`: the framed message is accepted
exactly when its bit count is at most `⌊w·h/16⌋`. -/
def encodeDWTAccepts (w h : Nat) (message : List Nat) : Bool :=
  decide ((stringToBinary (message ++ END_MARKER)).length ≤ dwtCapacity w h)

/-- The number of 8×8 blocks actually available to `embedInDWT` across
the three colour channels (`extractBlocks` in the DWT module builds
`3 · ⌊w/8⌋ · ⌊h/8⌋` blocks, and the embedding stores one bit per
block). -/
def dwtTotalBlocks (w h : Nat) : Nat := 3 * ((w / 8) * (h / 8))

/-! ## UTF-8 (`TextEncoder` / strict `TextDecoder` of `audio.ts`) -/

/-- Whether a code point is a Unicode scalar value (not a surrogate,
below `0x110000`). -/
def isScalarValue (c : Nat) : Prop := c < 0xD800 ∨ (0xE000 ≤ c ∧ c < 0x110000)

instance (c : Nat) : Decidable (isScalarValue c) := by
  unfold isScalarValue; infer_instance

/-- `TextEncoder().encode` on one code point: standard UTF-8, with a
lone surrogate replaced by U+FFFD (`EF BF BD`) as the WHATWG encoder
does. -/
def utf8EncodeChar (c : Nat) : List Nat :=
  if c < 0x80 then [c]
  else if c < 0x800 then [0xC0 + c / 64, 0x80 + c % 64]
  else if c < 0x10000 then
    if 0xD800 ≤ c ∧ c < 0xE000 then [0xEF, 0xBF, 0xBD]
    else [0xE0 + c / 4096, 0x80 + c / 64 % 64, 0x80 + c % 64]
  else [0xF0 + c / 262144, 0x80 + c / 4096 % 64, 0x80 + c / 64 % 64, 0x80 + c % 64]

/-- `TextEncoder().encode` on a sequence of code points. -/
def utf8Encode (s : List Nat) : List Nat := s.flatMap utf8EncodeChar

/-- Decode one scalar value of strict (WHATWG) UTF-8: given the lead
byte and the remaining bytes, return the code point and the bytes after
it, or `none` on a malformed sequence (continuation byte out of place,
overlong form, surrogate, or value above `0x10FFFF`). -/
def utf8Step (b : Nat) (rest : List Nat) : Option (Nat × List Nat) :=
  if b < 0x80 then some (b, rest)
  else if b < 0xC2 then none
  else if b < 0xE0 then
    match rest with
    | b1 :: r =>
        if 0x80 ≤ b1 ∧ b1 ≤ 0xBF then some ((b - 0xC0) * 64 + (b1 - 0x80), r)
        else none
    | [] => none
  else if b < 0xF0 then
    match rest with
    | b1 :: b2 :: r =>
        if ((b = 0xE0 ∧ 0xA0 ≤ b1 ∧ b1 ≤ 0xBF)
            ∨ (b = 0xED ∧ 0x80 ≤ b1 ∧ b1 ≤ 0x9F)
            ∨ (b ≠ 0xE0 ∧ b ≠ 0xED ∧ 0x80 ≤ b1 ∧ b1 ≤ 0xBF))
           ∧ (0x80 ≤ b2 ∧ b2 ≤ 0xBF) then
          some ((b - 0xE0) * 4096 + (b1 - 0x80) * 64 + (b2 - 0x80), r)
        else none
    | _ => none
  else if b < 0xF5 then
    match rest with
    | b1 :: b2 :: b3 :: r =>
        if ((b = 0xF0 ∧ 0x90 ≤ b1 ∧ b1 ≤ 0xBF)
            ∨ (b = 0xF4 ∧ 0x80 ≤ b1 ∧ b1 ≤ 0x8F)
            ∨ (b ≠ 0xF0 ∧ b ≠ 0xF4 ∧ 0x80 ≤ b1 ∧ b1 ≤ 0xBF))
           ∧ (0x80 ≤ b2 ∧ b2 ≤ 0xBF) ∧ (0x80 ≤ b3 ∧ b3 ≤ 0xBF) then
          some ((b - 0xF0) * 262144 + (b1 - 0x80) * 4096
            + (b2 - 0x80) * 64 + (b3 - 0x80), r)
        else none
    | _ => none
  else none

/-- The decoding loop, structurally recursive on a fuel argument; any
fuel at least the byte count is enough, because every step consumes at
least one byte. -/
def utf8DecodeAux : Nat → List Nat → Option (List Nat)
  | _, [] => some []
  | 0, _ :: _ => none
  | fuel + 1, b :: rest =>
      match utf8Step b rest with
      | some (cp, r) => (utf8DecodeAux fuel r).map (fun s => cp :: s)
      | none => none

/-- Strict UTF-8 decoding, the behaviour of
`new TextDecoder('utf-8', { fatal: true })`. -/
def utf8DecodeStrict (bytes : List Nat) : Option (List Nat) :=
  utf8DecodeAux bytes.length bytes

/-! ## The sample-domain audio codec (`audio.ts`) -/

/-- `MAGIC = 'STGH'` of `audio.ts`, as byte values. -/
def MAGIC : List Nat := [83, 84, 71, 72]

/-- The four big-endian length bytes written by `messageToBytes`
(`(len >>> 24) & 0xFF`, …): JavaScript `>>>` first reduces the operand
to an unsigned 32-bit integer. -/
def lengthBytes (len : Nat) : List Nat :=
  [len % 4294967296 / 16777216 % 256,
   len % 4294967296 / 65536 % 256,
   len % 4294967296 / 256 % 256,
   len % 4294967296 % 256]

/-- `messageToBytes` from `audio.ts`: UTF-8-encode the message and
prepend the 4-byte magic and the 4-byte big-endian payload length. -/
def messageToBytes (message : List Nat) : List Nat :=
  let messageBytes := utf8Encode message
  MAGIC ++ lengthBytes messageBytes.length ++ messageBytes

/-- `bytesToBits` from `audio.ts`: each byte contributes its binary
digits, most significant first, padded to eight (`toString(2).padStart(8, '0')`,
the same conversion as `stringToBinary`). -/
def bytesToBits (bytes : List Nat) : List Bool := bytes.flatMap charToBits

/-- `bitsToBytes` from `audio.ts`: chunks of eight bits become bytes;
a trailing chunk shorter than eight bits is left as the zero byte the
`Uint8Array` was initialised with. -/
def bitsToBytes (bits : List Bool) : List Nat :=
  (chunk8 bits).map (fun c => if c.length = 8 then bitsVal c else 0)

/-- The `(bytes[4] << 24) | (bytes[5] << 16) | (bytes[6] << 8) | bytes[7]`
header-length read of `audio.ts`: JavaScript `<<`/`|` work on signed
32-bit integers, so the result is the two's-complement reading of the
big-endian word. -/
def toInt32 (n : Nat) : ℤ :=
  if n % 4294967296 < 2147483648 then ((n % 4294967296 : Nat) : ℤ)
  else (n % 4294967296 : ℤ) - 4294967296

/-- The unsigned big-endian value of four bytes. -/
def be32 (b4 b5 b6 b7 : Nat) : Nat := b4 * 16777216 + b5 * 65536 + b6 * 256 + b7

/-- `Math.round(Math.max(-1, Math.min(1, x)) * 0x7FFF)` from
`encodeAudio`/`decodeAudio`: clamp a sample to `[-1, 1]` and round it
to 16-bit PCM (JavaScript `Math.round(y) = ⌊y + 1/2⌋`).  Stated
directly on the numerator/denominator so that it evaluates by kernel
reduction; `toPCM_eq` below proves it equal to the rounded-clamp
formula. -/
def toPCM (x : ℚ) : ℤ :=
  if x.num ≤ -(x.den : ℤ) then -32767
  else if (x.den : ℤ) ≤ x.num then 32767
  else (2 * 32767 * x.num + (x.den : ℤ)) / (2 * (x.den : ℤ))

/-- `pcmSamples[i] / 0x7FFF` from `encodeAudio`: the Float32 sample
written back for a PCM value. -/
def ofPCM (v : ℤ) : ℚ := mkRat v 32767

/-- `(pcmSamples[bitIndex] & 0xFFFE) | bit` stored back into an
`Int16Array`: clear the least significant bit of the 16-bit
two's-complement representation, or it with the message bit, and
re-interpret as a signed 16-bit value. -/
def setLSB16 (v : ℤ) (b : Bool) : ℤ :=
  let u := v % 65536
  let w := u - u % 2 + (if b then 1 else 0)
  if w < 32768 then w else w - 65536

/-- The embedding loop of `encodeAudio`: one message bit into the least
significant bit of each successive PCM sample; remaining samples are
untouched. -/
def embedPCM : List ℤ → List Bool → List ℤ
  | pcm, [] => pcm
  | [], _ => []
  | v :: vs, b :: bs => setLSB16 v b :: embedPCM vs bs

/-- `pcmSamples[i] & 1` of `decodeAudio`, reading index `i`:
out-of-range reads give `undefined`, and `undefined & 1 = 0`. -/
def lsbAt (pcm : List ℤ) (i : Nat) : Bool := decide ((pcm.getD i 0) % 2 = 1)

/-- `encodeAudio` from `audio.ts`, at the level of the first channel's
sample list (the WAV container and `decodeAudioData` round trip are
omitted; `bufferToWav` writes back exactly the PCM values produced
here).  The `algorithm` argument is accepted and never read, as in the
source.  Frames the message with magic and length, rejects it when the
bit count exceeds the sample count, PCM-converts the channel, embeds
the bits, and returns the modified channel. -/
def encodeAudio (samples : List ℚ) (message : List Nat) (algorithm : String) :
    Except String (List ℚ) :=
  let messageBits := bytesToBits (messageToBytes message)
  let capacityBits := samples.length
  if messageBits.length > capacityBits then
    .error ("Message too large for this audio file. Capacity: "
      ++ toString capacityBits ++ " bits, Required: "
      ++ toString messageBits.length ++ " bits")
  else
    let pcmSamples := samples.map toPCM
    .ok ((embedPCM pcmSamples messageBits).map ofPCM)

/-- `bytesToMessage` from `audio.ts`: check the header length and the
magic, read the declared length, slice out the payload
(JavaScript `slice` clamps, and treats a negative end as an offset from
the end), check it is complete, and strictly UTF-8-decode it. -/
def bytesToMessage (bytes : List Nat) : Except String (List Nat) :=
  if bytes.length < 8 then .error "Not enough bytes to contain header"
  else if bytes.take 4 ≠ MAGIC then
    .error "Could not extract message from this audio. Please ensure this file contains hidden data."
  else
    let messageLength : ℤ :=
      toInt32 (be32 (bytes.getD 4 0) (bytes.getD 5 0) (bytes.getD 6 0) (bytes.getD 7 0))
    let finish : ℤ := 8 + messageLength
    let stop : ℤ :=
      if finish < 0 then max ((bytes.length : ℤ) + finish) 0
      else min finish (bytes.length : ℤ)
    let payloadBytes := (bytes.drop 8).take (stop - 8).toNat
    if (payloadBytes.length : ℤ) < messageLength then .error "Incomplete message data"
    else
      match utf8DecodeStrict payloadBytes with
      | some s => .ok s
      | none => .error "Invalid UTF-8 data in decoded message"

/-- `decodeAudio` from `audio.ts`: PCM-convert the first channel, read
the 64 header LSBs, check the magic, read the signed 32-bit declared
length, check the declared total against the sample count, extract the
declared number of bits and parse them with `bytesToMessage`.  The
`algorithm` argument is accepted and never read, as in the source. -/
def decodeAudio (samples : List ℚ) (algorithm : String) :
    Except String (List Nat) :=
  let pcmSamples := samples.map toPCM
  let numSamples := samples.length
  let headerBytes := bitsToBytes ((List.range 64).map (lsbAt pcmSamples))
  if headerBytes.length < 8 then
    .error "Could not extract message from this audio. Please ensure this file contains hidden data."
  else if headerBytes.take 4 ≠ MAGIC then
    .error "Could not extract message from this audio. Please ensure this file contains hidden data."
  else
    let messageLength : ℤ :=
      toInt32 (be32 (headerBytes.getD 4 0) (headerBytes.getD 5 0)
        (headerBytes.getD 6 0) (headerBytes.getD 7 0))
    let totalBits : ℤ := (8 + messageLength) * 8
    if totalBits > (numSamples : ℤ) then
      .error "Extracted message length exceeds audio capacity"
    else
      let allBytes := bitsToBytes ((List.range totalBits.toNat).map (lsbAt pcmSamples))
      bytesToMessage allBytes

/-! ## Spec-side views of the audio decoder's header fields -/

/-- The eight header bytes recovered from the first 64 sample LSBs
(the claim's "first 32 sample LSBs spell the magic" is its first four
bytes). -/
def headerBytesOf (pcm : List ℤ) : List Nat :=
  bitsToBytes ((List.range 64).map (lsbAt pcm))

/-- The 4-byte big-endian payload length declared in the header, read
unsigned. -/
def declaredLen (pcm : List ℤ) : Nat :=
  be32 ((headerBytesOf pcm).getD 4 0) ((headerBytesOf pcm).getD 5 0)
    ((headerBytesOf pcm).getD 6 0) ((headerBytesOf pcm).getD 7 0)

/-- The `L` payload bytes packed (MSB-first) from the sample LSBs that
follow the 64 header bits. -/
def payloadBytesOf (pcm : List ℤ) (L : Nat) : List Nat :=
  bitsToBytes ((List.range' 64 (8 * L)).map (lsbAt pcm))

/-- A carrier whose PCM LSBs spell the magic header with a zero payload
length, but whose sample at index 64 is not of the form `v / 32767`:
such a channel is never produced by `encodeAudio`, yet decodes
successfully. -/
def cEx : List ℚ :=
  (bytesToBits (MAGIC ++ [0, 0, 0, 0])).map (fun b => if b then ofPCM 1 else 0)
    ++ [mkRat 1 131068]

/-! ## The dispatcher (`encodeMessage` / `decodeMessage`) -/

/-- The `StegoAlgorithm` enum of `steganography.ts`. -/
inductive StegoAlgorithm
  | lsb | dct | dwt | audio_phase | audio_echo
deriving DecidableEq, Repr

/-- The `FileFormat` enum of `steganography.ts`. -/
inductive FileFormat
  | image | audio | video | pdf
deriving DecidableEq, Repr

/-- One concrete codec invocation the dispatcher can make: the three
image decoders/encoders and `encodeAudio`/`decodeAudio` with either
variant string. -/
inductive Route
  | lsb | dct | dwt | audioPhase | audioEcho
deriving DecidableEq, Repr

/-- The string value of a `StegoAlgorithm` member, used in the
`Unsupported algorithm ${algorithm} for audio files` message. -/
def algName : StegoAlgorithm → String
  | .lsb => "lsb"
  | .dct => "dct"
  | .dwt => "dwt"
  | .audio_phase => "audio_phase"
  | .audio_echo => "audio_echo"

/-- `encodeMessage` from `steganography.ts`, with the five codec bodies
abstracted as an outcome per `Route` (their numeric pipelines are
modelled separately; the dispatch claims only concern which codec runs
and which error is raised).  The structure transcribes the nested
`switch`: for images, DCT and DWT dispatch to their codecs and
everything else — including the two audio algorithms — falls into the
`LSB | default` branch; for audio, only the two audio algorithms are
accepted. -/
def encodeMessage {α : Type} (codec : Route → Except String α)
    (algorithm : StegoAlgorithm) (fileFormat : FileFormat) : Except String α :=
  match fileFormat with
  | .image =>
      match algorithm with
      | .dct => codec .dct
      | .dwt => codec .dwt
      | _ => codec .lsb
  | .audio =>
      match algorithm with
      | .audio_phase => codec .audioPhase
      | .audio_echo => codec .audioEcho
      | a => .error ("Unsupported algorithm " ++ algName a ++ " for audio files")
  | .video => .error "Video steganography not yet implemented"
  | .pdf => .error "PDF steganography not yet implemented"

/-- The nested `try`/`catch` chain of the auto-detection path: return
the first successful outcome, and throw the could-not-detect error
after the last candidate fails. -/
def tryCandidates {α : Type} : List (Except String α) → Except String α
  | [] => .error "Could not detect encoding algorithm. No hidden message found."
  | r :: rs =>
      match r with
      | .ok v => .ok v
      | .error _ => tryCandidates rs

/-- `decodeMessage` from `steganography.ts`, abstracted over the codec
outcomes like `encodeMessage`.  For images the explicit `switch` has
cases for DCT, DWT and LSB only, so a requested audio algorithm falls
through to the auto-detection chain LSB → DCT → DWT; `none` also
auto-detects.  For audio, an explicit audio algorithm dispatches
directly, `none` tries the phase variant then the echo variant, and an
image algorithm is rejected. -/
def decodeMessage {α : Type} (codec : Route → Except String α)
    (algorithm : Option StegoAlgorithm) (fileFormat : FileFormat) :
    Except String α :=
  match fileFormat with
  | .image =>
      match algorithm with
      | some .dct => codec .dct
      | some .dwt => codec .dwt
      | some .lsb => codec .lsb
      | _ => tryCandidates [codec .lsb, codec .dct, codec .dwt]
  | .audio =>
      match algorithm with
      | some .audio_phase => codec .audioPhase
      | some .audio_echo => codec .audioEcho
      | none => tryCandidates [codec .audioPhase, codec .audioEcho]
      | some a => .error ("Unsupported algorithm " ++ algName a ++ " for audio files")
  | .video => .error "Video steganography not yet implemented"
  | .pdf => .error "PDF steganography not yet implemented"

/-- Decidable equality for `Except`, used to evaluate concrete codec
results. -/
instance {ε α : Type} [DecidableEq ε] [DecidableEq α] : DecidableEq (Except ε α) :=
  fun a b =>
    match a, b with
    | .ok x, .ok y => decidable_of_iff (x = y) (by simp)
    | .error e, .error f => decidable_of_iff (e = f) (by simp)
    | .ok _, .error _ => isFalse (by simp)
    | .error _, .ok _ => isFalse (by simp)

/-! ## Byte and chunk lemmas -/

theorem byteFacts : ∀ c < 256, (charToBits c).length = 8 ∧ bitsVal (charToBits c) = c := by
  decide

theorem chunk8_append8 (l r : List Bool) (h : l.length = 8) :
    chunk8 (l ++ r) = l :: chunk8 r := by
  rcases l with _ | ⟨b0, _ | ⟨b1, _ | ⟨b2, _ | ⟨b3, _ | ⟨b4, _ | ⟨b5, _ | ⟨b6, _ | ⟨b7, _ | ⟨b8, t⟩⟩⟩⟩⟩⟩⟩⟩⟩ <;>
    simp_all [chunk8]

theorem stringToBinary_cons (c : Nat) (s : List Nat) :
    stringToBinary (c :: s) = charToBits c ++ stringToBinary s := by
  simp [stringToBinary]

theorem stringToBinary_append (s t : List Nat) :
    stringToBinary (s ++ t) = stringToBinary s ++ stringToBinary t := by
  simp [stringToBinary]

theorem stringToBinary_length (s : List Nat) (h : ∀ c ∈ s, c < 256) :
    (stringToBinary s).length = 8 * s.length := by
  induction s with
  | nil => simp [stringToBinary]
  | cons c s ih =>
      have h8 := (byteFacts c (h c (by simp))).1
      rw [stringToBinary_cons]
      simp only [List.length_append, List.length_cons, h8,
        ih (fun d hd => h d (by simp [hd]))]
      ring

theorem binaryToString_split (s : List Nat) (junk : List Bool) (h : ∀ c ∈ s, c < 256) :
    binaryToString (stringToBinary s ++ junk) = s ++ binaryToString junk := by
  induction s with
  | nil => simp [stringToBinary]
  | cons c s ih =>
      have h8 := (byteFacts c (h c (by simp))).1
      have hv := (byteFacts c (h c (by simp))).2
      rw [stringToBinary_cons, List.append_assoc, binaryToString,
        chunk8_append8 _ _ h8]
      simp only [List.map_cons, hv]
      rw [← binaryToString, ih (fun d hd => h d (by simp [hd]))]
      simp

/-! ## Embedding and extraction lemmas for the LSB codec -/

theorem embedLoop_cons (d : Nat) (rest : List Nat) (i : Nat) (bits : List Bool) :
    embedLoop (d :: rest) i bits =
      if i % 4 = 3 then d :: embedLoop rest (i + 1) bits
      else
        match bits with
        | [] => d :: embedLoop rest (i + 1) []
        | b :: bs => setLSB d b :: embedLoop rest (i + 1) bs := rfl

theorem extractLoop_cons (d : Nat) (rest : List Nat) (i : Nat) :
    extractLoop (d :: rest) i =
      if i % 4 = 3 then extractLoop rest (i + 1)
      else lsbOf d :: extractLoop rest (i + 1) := rfl

theorem eligCount_cons (d : Nat) (rest : List Nat) (i : Nat) :
    eligCount (d :: rest) i =
      (if i % 4 = 3 then 0 else 1) + eligCount rest (i + 1) := rfl

theorem lsbOf_setLSB (d : Nat) (b : Bool) : lsbOf (setLSB d b) = b := by
  have key : ∀ n : Nat, decide (n % 2 = 1) = n.testBit 0 :=
    fun n => (Nat.testBit_zero n).symm
  unfold lsbOf setLSB
  rw [key, Nat.testBit_lor, Nat.testBit_land]
  cases b <;>
    simp [show Nat.testBit 254 0 = false from by decide,
      show Nat.testBit 1 0 = true from by decide,
      show Nat.testBit 0 0 = false from by decide]

theorem embedLoop_nil (data : List Nat) (i : Nat) : embedLoop data i [] = data := by
  induction data generalizing i with
  | nil => rfl
  | cons d rest ih => rw [embedLoop_cons]; split <;> simp [ih]

theorem extractLoop_length (data : List Nat) (i : Nat) :
    (extractLoop data i).length = eligCount data i := by
  induction data generalizing i with
  | nil => rfl
  | cons d rest ih =>
      rw [extractLoop_cons, eligCount_cons]
      split <;> simp [ih] <;> omega

theorem eligCount_le (data : List Nat) (i : Nat) : eligCount data i ≤ data.length := by
  induction data generalizing i with
  | nil => simp [eligCount]
  | cons d rest ih =>
      rw [eligCount_cons]
      have := ih (i + 1)
      split <;> simp <;> omega

theorem extract_embed (data : List Nat) (i : Nat) (bits : List Bool)
    (h : bits.length ≤ eligCount data i) :
    extractLoop (embedLoop data i bits) i =
      bits ++ (extractLoop data i).drop bits.length := by
  induction data generalizing i bits with
  | nil =>
      simp [eligCount, List.length_eq_zero] at h
      subst h
      simp [embedLoop, extractLoop]
  | cons d rest ih =>
      by_cases hi : i % 4 = 3
      · rw [eligCount_cons, if_pos hi] at h
        rw [embedLoop_cons, if_pos hi, extractLoop_cons, if_pos hi,
          extractLoop_cons, if_pos hi]
        exact ih (i + 1) bits (by omega)
      · cases bits with
        | nil => simp [embedLoop_nil, extractLoop]
        | cons b bs =>
            rw [eligCount_cons, if_neg hi] at h
            simp only [List.length_cons] at h
            rw [embedLoop_cons, if_neg hi]
            rw [extractLoop_cons, if_neg hi, extractLoop_cons, if_neg hi]
            simp only [lsbOf_setLSB, List.cons_append, List.length_cons,
              List.drop_succ_cons]
            rw [ih (i + 1) bs (by omega)]

/-! ## Sentinel-scan lemmas -/

theorem firstMarkerIdx_bound (l : List Nat) (j : Nat)
    (h : firstMarkerIdx l = some j) : j + 9 ≤ l.length := by
  induction l generalizing j with
  | nil => simp [firstMarkerIdx] at h
  | cons c t ih =>
      unfold firstMarkerIdx at h
      split at h
      · obtain rfl : (0 : Nat) = j := Option.some.inj h
        rename_i hp
        have := (List.isPrefixOf_iff_prefix.mp hp).length_le
        simpa [END_MARKER] using this
      · obtain ⟨i, hi, rfl⟩ := Option.map_eq_some'.mp h
        have := ih i hi
        simp only [List.length_cons]
        omega

theorem isPrefixOf_append_of_le (p l r : List Nat) (h : p.length ≤ l.length) :
    p.isPrefixOf (l ++ r) = p.isPrefixOf l := by
  rcases hb : p.isPrefixOf l with _ | _
  · rcases hc : p.isPrefixOf (l ++ r) with _ | _
    · rfl
    · exfalso
      have hpre := List.isPrefixOf_iff_prefix.mp hc
      have : p = l.take p.length := by
        have := List.prefix_iff_eq_take.mp hpre
        rwa [List.take_append_eq_append_take, Nat.sub_eq_zero_of_le h,
          List.take_zero, List.append_nil] at this
      have : p.isPrefixOf l = true :=
        List.isPrefixOf_iff_prefix.mpr (this ▸ List.take_prefix p.length l)
      rw [hb] at this
      exact Bool.false_ne_true this
  · have hpre := List.isPrefixOf_iff_prefix.mp hb
    exact List.isPrefixOf_iff_prefix.mpr (hpre.trans (List.prefix_append l r))

theorem firstMarkerIdx_append (l r : List Nat) (j : Nat)
    (h : firstMarkerIdx l = some j) : firstMarkerIdx (l ++ r) = some j := by
  induction l generalizing j with
  | nil => simp [firstMarkerIdx] at h
  | cons c t ih =>
      have hlen : 9 ≤ (c :: t).length := by
        have := firstMarkerIdx_bound _ _ h
        omega
      have hpre : END_MARKER.isPrefixOf ((c :: t) ++ r) = END_MARKER.isPrefixOf (c :: t) :=
        isPrefixOf_append_of_le _ _ _ (by simpa [END_MARKER] using hlen)
      unfold firstMarkerIdx at h
      show firstMarkerIdx (c :: (t ++ r)) = some j
      unfold firstMarkerIdx
      rw [show (c :: (t ++ r)) = (c :: t) ++ r from rfl, hpre]
      split at h
      · rename_i hp
        rw [if_pos hp]
        exact h
      · rename_i hp
        rw [if_neg hp]
        obtain ⟨i, hi, rfl⟩ := Option.map_eq_some'.mp h
        rw [ih i hi]
        rfl

theorem firstMarkerIdx_min (l : List Nat) (j k : Nat) (h : firstMarkerIdx l = some j)
    (hk : END_MARKER.isPrefixOf (l.drop k)) : j ≤ k := by
  induction l generalizing j k with
  | nil => simp [firstMarkerIdx] at h
  | cons c t ih =>
      cases k with
      | zero =>
          rw [List.drop_zero] at hk
          unfold firstMarkerIdx at h
          rw [if_pos hk] at h
          obtain rfl : (0 : Nat) = j := Option.some.inj h
          exact Nat.le_refl 0
      | succ k =>
          unfold firstMarkerIdx at h
          split at h
          · obtain rfl : (0 : Nat) = j := Option.some.inj h
            omega
          · obtain ⟨i, hi, rfl⟩ := Option.map_eq_some'.mp h
            have := ih i k hi (by simpa using hk)
            omega

/-- The general LSB round trip: for a message of byte-sized character
codes whose framed bit count fits in the eligible bytes, encoding
followed by decoding returns the part of the message before the first
occurrence of the sentinel in `message ++ END_MARKER`. -/
theorem decodeLSB_encodeLSB (data m : List Nat) (j : Nat)
    (hm : ∀ c ∈ m, c < 256)
    (hj : firstMarkerIdx (m ++ END_MARKER) = some j)
    (hcap : 8 * (m.length + 9) ≤ eligibleCount data) :
    (encodeLSB data m).bind decodeLSB = .ok (m.take j) := by
  have hmarker : ∀ c ∈ END_MARKER, c < 256 := by decide
  have hm' : ∀ c ∈ m ++ END_MARKER, c < 256 := by
    intro c hc
    rcases List.mem_append.mp hc with h | h
    · exact hm c h
    · exact hmarker c h
  have hblen : (stringToBinary (m ++ END_MARKER)).length = 8 * (m.length + 9) := by
    rw [stringToBinary_length _ hm']
    simp [END_MARKER]
  have hle : (stringToBinary (m ++ END_MARKER)).length ≤ eligibleCount data := by
    rw [hblen]; exact hcap
  have hled : (stringToBinary (m ++ END_MARKER)).length ≤ data.length :=
    hle.trans (eligCount_le data 0)
  have hjle : j ≤ m.length := by
    refine firstMarkerIdx_min _ _ _ hj ?_
    rw [List.drop_left]
    exact List.isPrefixOf_iff_prefix.mpr (List.prefix_refl _)
  unfold encodeLSB
  rw [if_neg (by omega)]
  show decodeLSB (embedLoop data 0 (stringToBinary (m ++ END_MARKER))) = _
  unfold decodeLSB
  rw [extract_embed data 0 _ hle, binaryToString_split _ _ hm']
  simp only [List.append_assoc]
  have hj' : firstMarkerIdx (m ++ (END_MARKER ++ binaryToString
      (List.drop (stringToBinary (m ++ END_MARKER)).length (extractLoop data 0)))) = some j := by
    have := firstMarkerIdx_append _ (binaryToString
      (List.drop (stringToBinary (m ++ END_MARKER)).length (extractLoop data 0))) _ hj
    simpa [List.append_assoc] using this
  simp only [hj']
  rw [List.take_append_eq_append_take, Nat.sub_eq_zero_of_le hjle,
    List.take_zero, List.append_nil]

/-! ## PCM conversion lemmas -/

/-- `toPCM` computes exactly
`Math.round(Math.max(-1, Math.min(1, x)) * 0x7FFF)` (with
`Math.round(y) = ⌊y + 1/2⌋`). -/
theorem toPCM_eq (x : ℚ) : toPCM x = ⌊max (-1) (min 1 x) * 32767 + 1/2⌋ := by
  have hden : (0 : ℚ) < (x.den : ℚ) := by exact_mod_cast x.den_pos
  have hx : (x.num : ℚ) / (x.den : ℚ) = x := Rat.num_div_den x
  unfold toPCM
  by_cases h1 : x.num ≤ -(x.den : ℤ)
  · have h1' : (x.num : ℚ) ≤ -(x.den : ℚ) := by exact_mod_cast h1
    have hle : x ≤ -1 := by
      rw [← hx, div_le_iff₀ hden]
      linarith
    have hmin : min 1 x = x := min_eq_right (hle.trans (by norm_num))
    have hmax : max (-1) (min 1 x) = -1 := by rw [hmin]; exact max_eq_left hle
    rw [if_pos h1, hmax,
      show (-1 : ℚ) * 32767 + 1/2 = ((-65533 : ℤ) : ℚ) / ((2 : ℕ) : ℚ) by norm_num,
      Rat.floor_intCast_div_natCast]
    decide
  · by_cases h2 : (x.den : ℤ) ≤ x.num
    · have h2' : (x.den : ℚ) ≤ (x.num : ℚ) := by exact_mod_cast h2
      have hge : 1 ≤ x := by
        rw [← hx, le_div_iff₀ hden]
        linarith
      rw [if_neg h1, if_pos h2, min_eq_left hge, max_eq_right (by norm_num),
        show (1 : ℚ) * 32767 + 1/2 = ((65535 : ℤ) : ℚ) / ((2 : ℕ) : ℚ) by norm_num,
        Rat.floor_intCast_div_natCast]
      decide
    · have h1' : -(x.den : ℚ) < (x.num : ℚ) := by exact_mod_cast not_le.mp h1
      have h2' : (x.num : ℚ) < (x.den : ℚ) := by exact_mod_cast not_le.mp h2
      have hlt1 : x < 1 := by
        rw [← hx, div_lt_iff₀ hden]
        linarith
      have hltm : -1 < x := by
        rw [← hx, lt_div_iff₀ hden]
        linarith
      rw [if_neg h1, if_neg h2, min_eq_right hlt1.le, max_eq_right hltm.le]
      have hxden : x * (x.den : ℚ) = (x.num : ℚ) := by
        have h := congrArg (fun y => y * (x.den : ℚ)) hx
        simp only [div_mul_cancel₀ _ (ne_of_gt hden)] at h
        exact h.symm
      have hval : x * 32767 + 1/2 =
          ((2 * 32767 * x.num + (x.den : ℤ) : ℤ) : ℚ) / ((2 * x.den : ℕ) : ℚ) := by
        rw [eq_div_iff (by positivity : ((2 * x.den : ℕ) : ℚ) ≠ 0)]
        push_cast
        linear_combination 65534 * hxden
      rw [hval, Rat.floor_intCast_div_natCast]
      push_cast
      rfl

theorem toPCM_bounds (x : ℚ) : -32767 ≤ toPCM x ∧ toPCM x ≤ 32767 := by
  rw [toPCM_eq]
  have h1 : (-1 : ℚ) ≤ max (-1) (min 1 x) := le_max_left _ _
  have h2 : max (-1) (min 1 x) ≤ 1 := by
    rcases le_or_lt x 1 with h | h
    · exact max_le (by norm_num) (min_le_left _ _)
    · exact max_le (by norm_num) (min_le_left _ _)
  constructor
  · have : (-32767 : ℚ) ≤ max (-1) (min 1 x) * 32767 + 1/2 := by nlinarith
    exact Int.le_floor.mpr (by exact_mod_cast this)
  · have hlt : max (-1) (min 1 x) * 32767 + 1/2 < 32768 := by nlinarith
    have hq : ((⌊max (-1) (min 1 x) * 32767 + 1/2⌋ : ℤ) : ℚ) < 32768 :=
      lt_of_le_of_lt (Int.floor_le _) hlt
    have : ⌊max (-1) (min 1 x) * 32767 + 1/2⌋ < 32768 := by exact_mod_cast hq
    omega

theorem ofPCM_eq (v : ℤ) : ofPCM v = (v : ℚ) / 32767 := by
  unfold ofPCM
  exact_mod_cast Rat.mkRat_eq_div v 32767

theorem toPCM_ofPCM (v : ℤ) (h1 : -32767 ≤ v) (h2 : v ≤ 32767) :
    toPCM (ofPCM v) = v := by
  rw [toPCM_eq, ofPCM_eq]
  have hv1 : ((v : ℚ) / 32767) ≤ 1 := by
    rw [div_le_one (by norm_num)]
    exact_mod_cast h2
  have hv2 : (-1 : ℚ) ≤ (v : ℚ) / 32767 := by
    rw [le_div_iff₀ (by norm_num : (0:ℚ) < 32767)]
    push_cast
    exact_mod_cast (by linarith : (-32767 : ℤ) ≤ v)
  rw [min_eq_right hv1, max_eq_right hv2, div_mul_cancel₀ _ (by norm_num : (32767:ℚ) ≠ 0)]
  rw [add_comm, Int.floor_add_int]
  norm_num

theorem setLSB16_parity (v : ℤ) (b : Bool) :
    setLSB16 v b % 2 = if b then 1 else 0 := by
  unfold setLSB16
  cases b <;> simp <;> omega

theorem setLSB16_bounds (v : ℤ) (b : Bool) (h1 : -32766 ≤ v) (h2 : v ≤ 32767) :
    -32767 ≤ setLSB16 v b ∧ setLSB16 v b ≤ 32767 := by
  unfold setLSB16
  cases b <;> simp <;> omega

theorem embedPCM_length (pcm : List ℤ) (bits : List Bool) :
    (embedPCM pcm bits).length = pcm.length := by
  induction pcm generalizing bits with
  | nil => cases bits <;> rfl
  | cons v vs ih =>
      cases bits with
      | nil => rfl
      | cons b bs => simp [embedPCM, ih]

theorem embedPCM_getD_lt (pcm : List ℤ) (bits : List Bool) (i : Nat)
    (h : i < bits.length) (hle : bits.length ≤ pcm.length) :
    (embedPCM pcm bits).getD i 0 = setLSB16 (pcm.getD i 0) (bits.getD i false) := by
  induction pcm generalizing bits i with
  | nil =>
      simp only [List.length_nil, Nat.le_zero, List.length_eq_zero] at hle
      subst hle
      simp at h
  | cons v vs ih =>
      cases bits with
      | nil => simp at h
      | cons b bs =>
          cases i with
          | zero => rfl
          | succ i =>
              simp only [embedPCM, List.getD_cons_succ]
              exact ih bs i (by simpa using h) (by simpa using hle)

theorem embedPCM_getD_ge (pcm : List ℤ) (bits : List Bool) (i : Nat)
    (h : bits.length ≤ i) :
    (embedPCM pcm bits).getD i 0 = pcm.getD i 0 := by
  induction pcm generalizing bits i with
  | nil => cases bits <;> rfl
  | cons v vs ih =>
      cases bits with
      | nil => rfl
      | cons b bs =>
          cases i with
          | zero => simp at h
          | succ i =>
              simp only [embedPCM, List.getD_cons_succ]
              exact ih bs i (by simpa using h)

theorem embedPCM_mem (pcm : List ℤ) (bits : List Bool) (v : ℤ)
    (hv : v ∈ embedPCM pcm bits) :
    (∃ w ∈ pcm, ∃ b, v = setLSB16 w b) ∨ v ∈ pcm := by
  induction pcm generalizing bits with
  | nil => cases bits <;> simp [embedPCM] at hv
  | cons w ws ih =>
      cases bits with
      | nil => exact Or.inr hv
      | cons b bs =>
          simp only [embedPCM, List.mem_cons] at hv
          rcases hv with rfl | hv
          · exact Or.inl ⟨w, by simp, b, rfl⟩
          · rcases ih bs hv with ⟨w', hw', b', rfl⟩ | hmem
            · exact Or.inl ⟨w', by simp [hw'], b', rfl⟩
            · exact Or.inr (by simp [hmem])

theorem lsbAt_embedPCM (pcm : List ℤ) (bits : List Bool) (i : Nat)
    (h : i < bits.length) (hle : bits.length ≤ pcm.length) :
    lsbAt (embedPCM pcm bits) i = bits.getD i false := by
  unfold lsbAt
  rw [embedPCM_getD_lt pcm bits i h hle, setLSB16_parity]
  cases hb : bits.getD i false <;> simp

theorem range_map_lsbAt_embedPCM (pcm : List ℤ) (bits : List Bool) (k : Nat)
    (hk : k ≤ bits.length) (hle : bits.length ≤ pcm.length) :
    (List.range k).map (lsbAt (embedPCM pcm bits)) = bits.take k := by
  apply List.ext_getElem
  · simp; omega
  · intro i h1 h2
    simp only [List.length_map, List.length_range] at h1
    simp only [List.getElem_map, List.getElem_range, List.getElem_take]
    rw [lsbAt_embedPCM pcm bits i (by omega) hle]
    exact List.getD_eq_getElem bits false (by omega)

/-! ## Audio byte-stream lemmas -/

theorem bytesToBits_eq_stringToBinary : bytesToBits = stringToBinary := rfl

theorem bytesToBits_append (a b : List Nat) :
    bytesToBits (a ++ b) = bytesToBits a ++ bytesToBits b := by
  simp [bytesToBits]

theorem bytesToBits_length (s : List Nat) (h : ∀ c ∈ s, c < 256) :
    (bytesToBits s).length = 8 * s.length :=
  stringToBinary_length s h

theorem bitsToBytes_bytesToBits (bytes : List Nat) (h : ∀ b ∈ bytes, b < 256) :
    bitsToBytes (bytesToBits bytes) = bytes := by
  induction bytes with
  | nil => rfl
  | cons c s ih =>
      have h8 := (byteFacts c (h c (by simp))).1
      have hv := (byteFacts c (h c (by simp))).2
      rw [show bytesToBits (c :: s) = charToBits c ++ bytesToBits s from rfl,
        bitsToBytes, chunk8_append8 _ _ h8]
      simp only [List.map_cons, h8, hv]
      rw [← bitsToBytes, ih (fun d hd => h d (by simp [hd]))]
      simp

theorem bitsVal_lt (l : List Bool) : bitsVal l < 2 ^ l.length := by
  suffices h : ∀ (l : List Bool) (a : Nat),
      l.foldl (fun a b => 2 * a + (if b then 1 else 0)) a < (a + 1) * 2 ^ l.length by
    have := h l 0
    simpa [bitsVal] using this
  intro l
  induction l with
  | nil => intro a; simp
  | cons b t ih =>
      intro a
      have h1 := ih (2 * a + (if b then 1 else 0))
      calc (b :: t).foldl (fun a b => 2 * a + (if b then 1 else 0)) a
          = t.foldl (fun a b => 2 * a + (if b then 1 else 0))
              (2 * a + (if b then 1 else 0)) := rfl
        _ < (2 * a + (if b then 1 else 0) + 1) * 2 ^ t.length := h1
        _ ≤ (a + 1) * 2 ^ (b :: t).length := by
            simp only [List.length_cons, pow_succ]
            cases b <;> simp <;> nlinarith [Nat.pos_pow_of_pos t.length (by norm_num : 0 < 2)]

theorem bitsToBytes_mem_lt (l : List Bool) : ∀ b ∈ bitsToBytes l, b < 256 := by
  intro b hb
  unfold bitsToBytes at hb
  obtain ⟨c, hc, rfl⟩ := List.mem_map.mp hb
  split
  · rename_i h8
    have := bitsVal_lt c
    rw [h8] at this
    simpa using this
  · norm_num

theorem chunk8_append_mul8 (k : Nat) (l r : List Bool) (h : l.length = 8 * k) :
    chunk8 (l ++ r) = chunk8 l ++ chunk8 r := by
  induction k generalizing l with
  | zero =>
      rw [List.length_eq_zero.mp (show l.length = 0 by omega)]
      simp [chunk8]
  | succ k ih =>
      have h8 : (l.take 8).length = 8 := by
        rw [List.length_take]
        omega
      have hrest : (l.drop 8).length = 8 * k := by
        rw [List.length_drop]
        omega
      calc chunk8 (l ++ r) = chunk8 (l.take 8 ++ (l.drop 8 ++ r)) := by
            rw [← List.append_assoc, List.take_append_drop]
        _ = l.take 8 :: chunk8 (l.drop 8 ++ r) := chunk8_append8 _ _ h8
        _ = l.take 8 :: (chunk8 (l.drop 8) ++ chunk8 r) := by rw [ih _ hrest]
        _ = chunk8 (l.take 8 ++ l.drop 8) ++ chunk8 r := by
            rw [chunk8_append8 _ _ h8]
            rfl
        _ = chunk8 l ++ chunk8 r := by rw [List.take_append_drop]

theorem bitsToBytes_append_mul8 (k : Nat) (l r : List Bool) (h : l.length = 8 * k) :
    bitsToBytes (l ++ r) = bitsToBytes l ++ bitsToBytes r := by
  unfold bitsToBytes
  rw [chunk8_append_mul8 k l r h, List.map_append]

theorem chunk8_length_le (k : Nat) (l : List Bool) (h : l.length ≤ 8 * k) :
    (chunk8 l).length ≤ k := by
  induction k generalizing l with
  | zero =>
      rw [List.length_eq_zero.mp (show l.length = 0 by omega)]
      simp [chunk8]
  | succ k ih =>
      rcases l with _ | ⟨b0, _ | ⟨b1, _ | ⟨b2, _ | ⟨b3, _ | ⟨b4, _ | ⟨b5, _ | ⟨b6, _ | ⟨b7, t⟩⟩⟩⟩⟩⟩⟩⟩
      · simp [chunk8]
      · simp [chunk8] <;> omega
      · simp [chunk8] <;> omega
      · simp [chunk8] <;> omega
      · simp [chunk8] <;> omega
      · simp [chunk8] <;> omega
      · simp [chunk8] <;> omega
      · simp [chunk8] <;> omega
      · rw [chunk8]
        simp only [List.length_cons] at h ⊢
        have := ih t (by omega)
        omega

theorem chunk8_length_exact (k : Nat) (l : List Bool) (h : l.length = 8 * k) :
    (chunk8 l).length = k := by
  induction k generalizing l with
  | zero =>
      rw [List.length_eq_zero.mp (show l.length = 0 by omega)]
      rfl
  | succ k ih =>
      have h8 : (l.take 8).length = 8 := by
        rw [List.length_take]
        omega
      have hrest : (l.drop 8).length = 8 * k := by
        rw [List.length_drop]
        omega
      have hsplit := chunk8_append8 (l.take 8) (l.drop 8) h8
      rw [List.take_append_drop] at hsplit
      rw [hsplit]
      simp [ih _ hrest]

theorem bitsToBytes_length_exact (k : Nat) (l : List Bool) (h : l.length = 8 * k) :
    (bitsToBytes l).length = k := by
  unfold bitsToBytes
  rw [List.length_map]
  exact chunk8_length_exact k l h

/-! ## Header arithmetic lemmas -/

theorem lengthBytes_lt (n : Nat) : ∀ b ∈ lengthBytes n, b < 256 := by
  intro b hb
  unfold lengthBytes at hb
  simp only [List.mem_cons, List.mem_singleton] at hb
  rcases hb with rfl | rfl | rfl | rfl | h
  any_goals omega
  simp at h

theorem toInt32_small (n : Nat) (h : n < 2147483648) : toInt32 n = (n : ℤ) := by
  unfold toInt32
  rw [Nat.mod_eq_of_lt (by omega)]
  rw [if_pos (by omega)]

theorem be32_lengthBytes (n : Nat) (h : n < 2147483648) :
    be32 ((lengthBytes n).getD 0 0) ((lengthBytes n).getD 1 0)
      ((lengthBytes n).getD 2 0) ((lengthBytes n).getD 3 0) = n := by
  unfold lengthBytes be32
  simp only [List.getD_cons_zero, List.getD_cons_succ]
  omega

/-! ## UTF-8 lemmas -/

theorem utf8DecodeAux_succ (fuel b : Nat) (rest : List Nat) :
    utf8DecodeAux (fuel + 1) (b :: rest) =
      match utf8Step b rest with
      | some (cp, r) => (utf8DecodeAux fuel r).map (fun s => cp :: s)
      | none => none := rfl

theorem utf8Step_one (b : Nat) (rest : List Nat) (h : b < 0x80) :
    utf8Step b rest = some (b, rest) := by
  unfold utf8Step
  rw [if_pos h]

theorem utf8Step_two (b b1 : Nat) (rest : List Nat)
    (hb : 0xC2 ≤ b) (hb' : b < 0xE0) (h1 : 0x80 ≤ b1 ∧ b1 ≤ 0xBF) :
    utf8Step b (b1 :: rest) = some ((b - 0xC0) * 64 + (b1 - 0x80), rest) := by
  unfold utf8Step
  rw [if_neg (by omega), if_neg (by omega), if_pos hb']
  show (if 0x80 ≤ b1 ∧ b1 ≤ 0xBF then some ((b - 0xC0) * 64 + (b1 - 0x80), rest)
    else none) = _
  rw [if_pos h1]

theorem utf8Step_three (b b1 b2 : Nat) (rest : List Nat)
    (hb : 0xE0 ≤ b) (hb' : b < 0xF0)
    (h1 : (b = 0xE0 ∧ 0xA0 ≤ b1 ∧ b1 ≤ 0xBF)
        ∨ (b = 0xED ∧ 0x80 ≤ b1 ∧ b1 ≤ 0x9F)
        ∨ (b ≠ 0xE0 ∧ b ≠ 0xED ∧ 0x80 ≤ b1 ∧ b1 ≤ 0xBF))
    (h2 : 0x80 ≤ b2 ∧ b2 ≤ 0xBF) :
    utf8Step b (b1 :: b2 :: rest) =
      some ((b - 0xE0) * 4096 + (b1 - 0x80) * 64 + (b2 - 0x80), rest) := by
  unfold utf8Step
  rw [if_neg (by omega), if_neg (by omega), if_neg (by omega), if_pos hb']
  show (if ((b = 0xE0 ∧ 0xA0 ≤ b1 ∧ b1 ≤ 0xBF)
          ∨ (b = 0xED ∧ 0x80 ≤ b1 ∧ b1 ≤ 0x9F)
          ∨ (b ≠ 0xE0 ∧ b ≠ 0xED ∧ 0x80 ≤ b1 ∧ b1 ≤ 0xBF))
         ∧ (0x80 ≤ b2 ∧ b2 ≤ 0xBF) then
      some ((b - 0xE0) * 4096 + (b1 - 0x80) * 64 + (b2 - 0x80), rest)
    else none) = _
  rw [if_pos (And.intro h1 h2)]

theorem utf8Step_four (b b1 b2 b3 : Nat) (rest : List Nat)
    (hb : 0xF0 ≤ b) (hb' : b < 0xF5)
    (h1 : (b = 0xF0 ∧ 0x90 ≤ b1 ∧ b1 ≤ 0xBF)
        ∨ (b = 0xF4 ∧ 0x80 ≤ b1 ∧ b1 ≤ 0x8F)
        ∨ (b ≠ 0xF0 ∧ b ≠ 0xF4 ∧ 0x80 ≤ b1 ∧ b1 ≤ 0xBF))
    (h2 : 0x80 ≤ b2 ∧ b2 ≤ 0xBF) (h3 : 0x80 ≤ b3 ∧ b3 ≤ 0xBF) :
    utf8Step b (b1 :: b2 :: b3 :: rest) =
      some ((b - 0xF0) * 262144 + (b1 - 0x80) * 4096
        + (b2 - 0x80) * 64 + (b3 - 0x80), rest) := by
  unfold utf8Step
  rw [if_neg (by omega), if_neg (by omega), if_neg (by omega), if_neg (by omega),
    if_pos hb']
  show (if ((b = 0xF0 ∧ 0x90 ≤ b1 ∧ b1 ≤ 0xBF)
          ∨ (b = 0xF4 ∧ 0x80 ≤ b1 ∧ b1 ≤ 0x8F)
          ∨ (b ≠ 0xF0 ∧ b ≠ 0xF4 ∧ 0x80 ≤ b1 ∧ b1 ≤ 0xBF))
         ∧ (0x80 ≤ b2 ∧ b2 ≤ 0xBF) ∧ (0x80 ≤ b3 ∧ b3 ≤ 0xBF) then
      some ((b - 0xF0) * 262144 + (b1 - 0x80) * 4096
        + (b2 - 0x80) * 64 + (b3 - 0x80), rest)
    else none) = _
  rw [if_pos (And.intro h1 (And.intro h2 h3))]

theorem utf8EncodeChar_lt (c : Nat) (h : c < 0x110000) :
    ∀ b ∈ utf8EncodeChar c, b < 256 := by
  intro b hb
  unfold utf8EncodeChar at hb
  split at hb
  · simp only [List.mem_singleton] at hb; omega
  · split at hb
    · simp only [List.mem_cons, List.mem_singleton] at hb
      rcases hb with rfl | rfl | hf
      · omega
      · omega
      · simp at hf
    · split at hb
      · split at hb
        · simp only [List.mem_cons, List.mem_singleton] at hb
          rcases hb with rfl | rfl | rfl | hf
          any_goals omega
          simp at hf
        · simp only [List.mem_cons, List.mem_singleton] at hb
          rcases hb with rfl | rfl | rfl | hf
          · omega
          · omega
          · omega
          · simp at hf
      · simp only [List.mem_cons, List.mem_singleton] at hb
        rcases hb with rfl | rfl | rfl | rfl | hf
        any_goals omega
        simp at hf

theorem utf8Encode_nonempty_char (c : Nat) : 1 ≤ (utf8EncodeChar c).length := by
  unfold utf8EncodeChar
  split
  · simp
  · split
    · simp
    · split
      · split
        · simp
        · simp
      · simp

theorem utf8_roundtrip_aux (s : List Nat) (h : ∀ c ∈ s, isScalarValue c) :
    ∀ fuel, (utf8Encode s).length ≤ fuel →
      utf8DecodeAux fuel (utf8Encode s) = some s := by
  induction s with
  | nil => intro fuel _; cases fuel <;> rfl
  | cons c s ih =>
      intro fuel hfuel
      have hc := h c (by simp)
      have hscal : c < 0xD800 ∨ (0xE000 ≤ c ∧ c < 0x110000) := hc
      have hlen : (utf8Encode (c :: s)).length
          = (utf8EncodeChar c).length + (utf8Encode s).length := by
        show (utf8EncodeChar c ++ utf8Encode s).length = _
        simp
      have hone := utf8Encode_nonempty_char c
      obtain ⟨f, rfl⟩ : ∃ f, fuel = f + 1 := by
        rcases fuel with _ | f
        · exfalso; rw [hlen] at hfuel; omega
        · exact ⟨f, rfl⟩
      have ihs := ih (fun d hd => h d (by simp [hd])) f
        (by rw [hlen] at hfuel; omega)
      show utf8DecodeAux (f + 1) (utf8EncodeChar c ++ utf8Encode s) = some (c :: s)
      unfold utf8EncodeChar
      by_cases h1 : c < 0x80
      · rw [if_pos h1]
        simp only [List.cons_append, List.nil_append]
        rw [utf8DecodeAux_succ, utf8Step_one _ _ h1]
        simp only [ihs, Option.map_some']
      · by_cases h2 : c < 0x800
        · rw [if_neg h1, if_pos h2]
          simp only [List.cons_append, List.nil_append]
          rw [utf8DecodeAux_succ, utf8Step_two _ _ _ (by omega) (by omega) (by omega)]
          simp only [ihs, Option.map_some']
          congr 2
          omega
        · by_cases h3 : c < 0x10000
          · rw [if_neg h1, if_neg h2, if_pos h3,
              if_neg (by rcases hscal with h | h <;> omega)]
            simp only [List.cons_append, List.nil_append]
            rw [utf8DecodeAux_succ, utf8Step_three _ _ _ _ (by omega) (by omega) ?hcond (by omega)]
            case hcond =>
              by_cases hE0 : c < 0x1000
              · exact Or.inl ⟨by omega, by omega, by omega⟩
              · by_cases hED : 0xD000 ≤ c ∧ c < 0xE000
                · have hs : c < 0xD800 := by rcases hscal with h | h <;> omega
                  exact Or.inr (Or.inl ⟨by omega, by omega, by omega⟩)
                · exact Or.inr (Or.inr ⟨by omega, by omega, by omega, by omega⟩)
            simp only [ihs, Option.map_some']
            congr 2
            omega
          · rw [if_neg h1, if_neg h2, if_neg h3]
            have hmax : c < 0x110000 := by rcases hscal with h | h <;> omega
            simp only [List.cons_append, List.nil_append]
            rw [utf8DecodeAux_succ, utf8Step_four _ _ _ _ _ (by omega) (by omega) ?hcond
              (by omega) (by omega)]
            case hcond =>
              by_cases hF0 : c < 0x40000
              · exact Or.inl (by refine ⟨by omega, by omega, by omega⟩)
              · by_cases hF4 : 0x100000 ≤ c
                · exact Or.inr (Or.inl (by refine ⟨by omega, by omega, by omega⟩))
                · exact Or.inr (Or.inr (by refine ⟨by omega, by omega, by omega, by omega⟩))
            simp only [ihs, Option.map_some']
            congr 2
            omega

theorem utf8_roundtrip (s : List Nat) (h : ∀ c ∈ s, isScalarValue c) :
    utf8DecodeStrict (utf8Encode s) = some s :=
  utf8_roundtrip_aux s h (utf8Encode s).length (Nat.le_refl _)

/-! ## Audio round trip -/

theorem utf8Encode_mem_lt (s : List Nat) (h : ∀ c ∈ s, isScalarValue c) :
    ∀ b ∈ utf8Encode s, b < 256 := by
  intro b hb
  unfold utf8Encode at hb
  obtain ⟨c, hc, hbc⟩ := List.mem_flatMap.mp hb
  have hcs := h c hc
  refine utf8EncodeChar_lt c ?_ b hbc
  rcases hcs with h' | h' <;> omega

theorem MAGIC_lt : ∀ b ∈ MAGIC, b < 256 := by decide

theorem messageToBytes_eq (m : List Nat) :
    messageToBytes m = MAGIC ++ lengthBytes (utf8Encode m).length ++ utf8Encode m := rfl

theorem messageToBytes_lt (m : List Nat) (h : ∀ c ∈ m, isScalarValue c) :
    ∀ b ∈ messageToBytes m, b < 256 := by
  intro b hb
  rw [messageToBytes_eq] at hb
  rcases List.mem_append.mp hb with hb' | hb'
  · rcases List.mem_append.mp hb' with hb'' | hb''
    · exact MAGIC_lt b hb''
    · exact lengthBytes_lt _ b hb''
  · exact utf8Encode_mem_lt m h b hb'

theorem messageToBytes_length (m : List Nat) :
    (messageToBytes m).length = 8 + (utf8Encode m).length := by
  rw [messageToBytes_eq]
  simp [MAGIC, lengthBytes]
  omega

theorem audio_roundtrip_core (samples : List ℚ) (m : List Nat) (a1 a2 : String)
    (hscalar : ∀ c ∈ m, isScalarValue c)
    (hlen : (utf8Encode m).length < 2147483648)
    (hcap : 8 * (8 + (utf8Encode m).length) ≤ samples.length)
    (hfs : ∀ x ∈ samples, toPCM x ≠ -32767) :
    (encodeAudio samples m a1).bind (fun c => decodeAudio c a2) = .ok m := by
  have hmb_lt : ∀ b ∈ messageToBytes m, b < 256 := messageToBytes_lt m hscalar
  have hmb_len : (messageToBytes m).length = 8 + (utf8Encode m).length :=
    messageToBytes_length m
  have hbits_len : (bytesToBits (messageToBytes m)).length
      = 8 * (8 + (utf8Encode m).length) := by
    rw [bytesToBits_length _ hmb_lt, hmb_len]
  have hpcm_bounds : ∀ v ∈ samples.map toPCM, -32766 ≤ v ∧ v ≤ 32767 := by
    intro v hv
    obtain ⟨x, hx, rfl⟩ := List.mem_map.mp hv
    have h1 := toPCM_bounds x
    have h2 := hfs x hx
    omega
  have hemb_bounds : ∀ v ∈ embedPCM (samples.map toPCM) (bytesToBits (messageToBytes m)),
      -32767 ≤ v ∧ v ≤ 32767 := by
    intro v hv
    rcases embedPCM_mem _ _ _ hv with ⟨w, hw, b, rfl⟩ | hvmem
    · exact setLSB16_bounds w b (hpcm_bounds w hw).1 (hpcm_bounds w hw).2
    · have := hpcm_bounds v hvmem
      omega
  have hble : (bytesToBits (messageToBytes m)).length ≤ (samples.map toPCM).length := by
    rw [hbits_len, List.length_map]
    exact hcap
  simp only [encodeAudio]
  rw [if_neg (by rw [hbits_len]; omega)]
  show decodeAudio ((embedPCM (samples.map toPCM) (bytesToBits (messageToBytes m))).map ofPCM) a2
      = .ok m
  have hmap : ((embedPCM (samples.map toPCM) (bytesToBits (messageToBytes m))).map ofPCM).map toPCM
      = embedPCM (samples.map toPCM) (bytesToBits (messageToBytes m)) := by
    rw [List.map_map]
    conv_rhs => rw [← List.map_id (embedPCM (samples.map toPCM) (bytesToBits (messageToBytes m)))]
    apply List.map_congr_left
    intro v hv
    exact toPCM_ofPCM v (hemb_bounds v hv).1 (hemb_bounds v hv).2
  have hlen_out : ((embedPCM (samples.map toPCM) (bytesToBits (messageToBytes m))).map ofPCM).length
      = samples.length := by
    rw [List.length_map, embedPCM_length, List.length_map]
  simp only [decodeAudio, hmap, hlen_out]
  have hheadbits : (List.range 64).map
        (lsbAt (embedPCM (samples.map toPCM) (bytesToBits (messageToBytes m))))
      = (bytesToBits (messageToBytes m)).take 64 :=
    range_map_lsbAt_embedPCM _ _ 64 (by rw [hbits_len]; omega) hble
  have hhl_lt : ∀ b ∈ MAGIC ++ lengthBytes (utf8Encode m).length, b < 256 := by
    intro b hb
    rcases List.mem_append.mp hb with hb' | hb'
    · exact MAGIC_lt b hb'
    · exact lengthBytes_lt _ b hb'
  have hhl_len : (MAGIC ++ lengthBytes (utf8Encode m).length).length = 8 := by
    simp [MAGIC, lengthBytes]
  have htake64 : (bytesToBits (messageToBytes m)).take 64
      = bytesToBits (MAGIC ++ lengthBytes (utf8Encode m).length) := by
    have hsplit : messageToBytes m
        = (MAGIC ++ lengthBytes (utf8Encode m).length) ++ utf8Encode m := by
      rw [messageToBytes_eq]
    rw [hsplit, bytesToBits_append]
    have h64 : (bytesToBits (MAGIC ++ lengthBytes (utf8Encode m).length)).length = 64 := by
      rw [bytesToBits_length _ hhl_lt, hhl_len]
    rw [List.take_append_eq_append_take, h64]
    simp [h64]
  have hheader : bitsToBytes ((List.range 64).map
        (lsbAt (embedPCM (samples.map toPCM) (bytesToBits (messageToBytes m)))))
      = MAGIC ++ lengthBytes (utf8Encode m).length := by
    rw [hheadbits, htake64, bitsToBytes_bytesToBits _ hhl_lt]
  rw [hheader]
  rw [if_neg (by rw [hhl_len]; omega)]
  have htake4 : (MAGIC ++ lengthBytes (utf8Encode m).length).take 4 = MAGIC := by
    simp [MAGIC, lengthBytes]
  rw [if_neg (by rw [htake4]; exact fun hne => hne rfl)]
  have hml : toInt32 (be32 ((MAGIC ++ lengthBytes (utf8Encode m).length).getD 4 0)
      ((MAGIC ++ lengthBytes (utf8Encode m).length).getD 5 0)
      ((MAGIC ++ lengthBytes (utf8Encode m).length).getD 6 0)
      ((MAGIC ++ lengthBytes (utf8Encode m).length).getD 7 0))
      = ((utf8Encode m).length : ℤ) := by
    have hg4 : (MAGIC ++ lengthBytes (utf8Encode m).length).getD 4 0
        = (lengthBytes (utf8Encode m).length).getD 0 0 := by simp [MAGIC]
    have hg5 : (MAGIC ++ lengthBytes (utf8Encode m).length).getD 5 0
        = (lengthBytes (utf8Encode m).length).getD 1 0 := by simp [MAGIC]
    have hg6 : (MAGIC ++ lengthBytes (utf8Encode m).length).getD 6 0
        = (lengthBytes (utf8Encode m).length).getD 2 0 := by simp [MAGIC]
    have hg7 : (MAGIC ++ lengthBytes (utf8Encode m).length).getD 7 0
        = (lengthBytes (utf8Encode m).length).getD 3 0 := by simp [MAGIC]
    rw [hg4, hg5, hg6, hg7, be32_lengthBytes _ hlen, toInt32_small _ hlen]
  rw [hml]
  rw [if_neg (by push_cast; omega)]
  have htoNat : ((8 + ((utf8Encode m).length : ℤ)) * 8).toNat
      = 8 * (8 + (utf8Encode m).length) := by omega
  rw [htoNat]
  have hallbits : (List.range (8 * (8 + (utf8Encode m).length))).map
        (lsbAt (embedPCM (samples.map toPCM) (bytesToBits (messageToBytes m))))
      = bytesToBits (messageToBytes m) := by
    rw [← hbits_len]
    rw [range_map_lsbAt_embedPCM _ _ _ (Nat.le_refl _) hble]
    exact List.take_length .. 
  rw [hallbits, bitsToBytes_bytesToBits _ hmb_lt]
  -- bytesToMessage (messageToBytes m) = .ok m
  simp only [bytesToMessage]
  rw [if_neg (by rw [hmb_len]; omega)]
  have htk4 : (messageToBytes m).take 4 = MAGIC := by
    rw [messageToBytes_eq]
    simp [MAGIC, lengthBytes]
  rw [if_neg (by rw [htk4]; exact fun hne => hne rfl)]
  have hmlg : ∀ i : Nat, i < 4 → (messageToBytes m).getD (4 + i) 0
      = (lengthBytes (utf8Encode m).length).getD i 0 := by
    intro i hi
    rw [messageToBytes_eq]
    interval_cases i <;> simp [MAGIC, lengthBytes]
  have hml2 : toInt32 (be32 ((messageToBytes m).getD 4 0) ((messageToBytes m).getD 5 0)
      ((messageToBytes m).getD 6 0) ((messageToBytes m).getD 7 0))
      = ((utf8Encode m).length : ℤ) := by
    rw [show (5 : Nat) = 4 + 1 from rfl, show (6 : Nat) = 4 + 2 from rfl,
      show (7 : Nat) = 4 + 3 from rfl, show (4 : Nat) = 4 + 0 from rfl]
    rw [hmlg 0 (by omega), hmlg 1 (by omega), hmlg 2 (by omega), hmlg 3 (by omega)]
    rw [be32_lengthBytes _ hlen, toInt32_small _ hlen]
  rw [hml2]
  have hfin : (if (8 + ((utf8Encode m).length : ℤ)) < 0
      then max (((messageToBytes m).length : ℤ) + (8 + ((utf8Encode m).length : ℤ))) 0
      else min (8 + ((utf8Encode m).length : ℤ)) (((messageToBytes m).length : ℤ)))
      = 8 + ((utf8Encode m).length : ℤ) := by
    rw [if_neg (by push_cast; omega)]
    rw [hmb_len]
    push_cast
    omega
  rw [hfin]
  have hdrop : (messageToBytes m).drop 8 = utf8Encode m := by
    rw [messageToBytes_eq]
    simp [MAGIC, lengthBytes]
  have htkN : (8 + ((utf8Encode m).length : ℤ) - 8).toNat = (utf8Encode m).length := by
    omega
  rw [htkN, hdrop, List.take_length]
  rw [if_neg (by omega)]
  rw [utf8_roundtrip m hscalar]

/-! ## Header-field lemmas for the audio decoder -/

theorem headerBytesOf_def (pcm : List ℤ) :
    headerBytesOf pcm = bitsToBytes ((List.range 64).map (lsbAt pcm)) := rfl

theorem headerBytesOf_length (pcm : List ℤ) : (headerBytesOf pcm).length = 8 :=
  bitsToBytes_length_exact 8 _ (by simp)

theorem getD_append_lt (l r : List Nat) (i : Nat) (d : Nat) (h : i < l.length) :
    (l ++ r).getD i d = l.getD i d := by
  rw [List.getD_eq_getElem _ _ (by simp; omega), List.getD_eq_getElem _ _ h]
  exact List.getElem_append_left h

theorem toInt32_large (n : Nat) (h1 : 2147483648 ≤ n) (h2 : n < 4294967296) :
    toInt32 n = (n : ℤ) - 4294967296 := by
  unfold toInt32
  rw [Nat.mod_eq_of_lt h2]
  rw [if_neg (by omega)]
  omega

theorem headerBytesOf_getD_lt (pcm : List ℤ) (i : Nat) (h : i < 8) :
    (headerBytesOf pcm).getD i 0 < 256 := by
  have hlen := headerBytesOf_length pcm
  rw [List.getD_eq_getElem _ _ (by omega)]
  exact bitsToBytes_mem_lt _ _ (List.getElem_mem _)

theorem declaredLen_lt (pcm : List ℤ) : declaredLen pcm < 4294967296 := by
  unfold declaredLen be32
  have h4 := headerBytesOf_getD_lt pcm 4 (by omega)
  have h5 := headerBytesOf_getD_lt pcm 5 (by omega)
  have h6 := headerBytesOf_getD_lt pcm 6 (by omega)
  have h7 := headerBytesOf_getD_lt pcm 7 (by omega)
  omega

theorem declaredLen_def (pcm : List ℤ) :
    declaredLen pcm = be32 ((headerBytesOf pcm).getD 4 0) ((headerBytesOf pcm).getD 5 0)
      ((headerBytesOf pcm).getD 6 0) ((headerBytesOf pcm).getD 7 0) := rfl

theorem decodeAudio_magic_fail (samples : List ℚ) (alg : String)
    (h : (headerBytesOf (samples.map toPCM)).take 4 ≠ MAGIC) :
    decodeAudio samples alg =
      .error "Could not extract message from this audio. Please ensure this file contains hidden data." := by
  simp only [decodeAudio, ← headerBytesOf_def]
  rw [if_neg (by rw [headerBytesOf_length]; omega), if_pos h]

theorem decodeAudio_toolong (samples : List ℚ) (alg : String)
    (hm : (headerBytesOf (samples.map toPCM)).take 4 = MAGIC)
    (hcap : samples.length < 8 * (8 + declaredLen (samples.map toPCM))) :
    decodeAudio samples alg = .error "Extracted message length exceeds audio capacity"
    ∨ decodeAudio samples alg = .error "Not enough bytes to contain header" := by
  simp only [decodeAudio, ← headerBytesOf_def, ← declaredLen_def]
  rw [if_neg (by rw [headerBytesOf_length]; omega), if_neg (fun hne => hne hm)]
  by_cases hsmall : declaredLen (samples.map toPCM) < 2147483648
  · rw [toInt32_small _ hsmall]
    rw [if_pos (by push_cast; omega)]
    left
    rfl
  · rw [toInt32_large _ (by omega) (declaredLen_lt _)]
    split
    · left
      rfl
    · rename_i htb
      right
      simp only [bytesToMessage]
      rw [if_pos ?hlt]
      case hlt =>
        have hL := declaredLen_lt (samples.map toPCM)
        have htN : (((8 : ℤ) + ((declaredLen (samples.map toPCM) : ℤ) - 4294967296)) * 8).toNat ≤ 56 := by
          omega
        have hblen : ((List.range ((((8 : ℤ) + ((declaredLen (samples.map toPCM) : ℤ) - 4294967296)) * 8).toNat)).map
            (lsbAt (samples.map toPCM))).length ≤ 56 := by
          simp
          omega
        have := chunk8_length_le 7 _ (by omega :
          ((List.range ((((8 : ℤ) + ((declaredLen (samples.map toPCM) : ℤ) - 4294967296)) * 8).toNat)).map
            (lsbAt (samples.map toPCM))).length ≤ 8 * 7)
        unfold bitsToBytes
        rw [List.length_map]
        omega

theorem decodeAudio_ok_shape (samples : List ℚ) (alg : String)
    (hm : (headerBytesOf (samples.map toPCM)).take 4 = MAGIC)
    (hcap : 8 * (8 + declaredLen (samples.map toPCM)) ≤ samples.length)
    (hbound : samples.length < 17179869184) :
    decodeAudio samples alg =
      match utf8DecodeStrict
          (payloadBytesOf (samples.map toPCM) (declaredLen (samples.map toPCM))) with
      | some s => .ok s
      | none => .error "Invalid UTF-8 data in decoded message" := by
  simp only [decodeAudio, ← headerBytesOf_def, ← declaredLen_def]
  obtain ⟨L, hL⟩ : ∃ L, declaredLen (samples.map toPCM) = L := ⟨_, rfl⟩
  obtain ⟨hb, hhb⟩ : ∃ hb, headerBytesOf (samples.map toPCM) = hb := ⟨_, rfl⟩
  obtain ⟨pl, hpl⟩ : ∃ pl, payloadBytesOf (samples.map toPCM) L = pl := ⟨_, rfl⟩
  rw [hL] at hcap ⊢
  rw [hhb] at hm ⊢
  rw [hpl]
  have hsmall : L < 2147483648 := by omega
  have hblen : hb.length = 8 := by rw [← hhb]; exact headerBytesOf_length _
  have hplen : pl.length = L := by
    rw [← hpl]
    exact bitsToBytes_length_exact _ _ (by simp)
  rw [if_neg (by rw [hblen]; omega), if_neg (fun hne => hne hm)]
  rw [toInt32_small _ hsmall]
  rw [if_neg (by push_cast; omega)]
  have htoNat : (((8 : ℤ) + (L : ℤ)) * 8).toNat = 64 + 8 * L := by omega
  rw [htoNat]
  have hsplit : (List.range (64 + 8 * L)).map (lsbAt (samples.map toPCM))
      = (List.range 64).map (lsbAt (samples.map toPCM))
        ++ (List.range' 64 (8 * L)).map (lsbAt (samples.map toPCM)) := by
    rw [List.range_add, List.map_append, List.range'_eq_map_range, List.map_map]
  rw [hsplit]
  have hbbs : bitsToBytes ((List.range 64).map (lsbAt (samples.map toPCM))
        ++ (List.range' 64 (8 * L)).map (lsbAt (samples.map toPCM)))
      = hb ++ pl := by
    rw [bitsToBytes_append_mul8 8 _ _ (by simp), ← hhb, ← hpl]
    rfl
  rw [hbbs]
  simp only [bytesToMessage]
  rw [if_neg (by rw [List.length_append, hblen, hplen]; omega)]
  have htk4 : (hb ++ pl).take 4 = MAGIC := by
    rw [List.take_append_eq_append_take, hblen]
    simp [hm]
  rw [if_neg (fun hne => hne htk4)]
  have hg : ∀ i : Nat, i < 8 → (hb ++ pl).getD i 0 = hb.getD i 0 := by
    intro i hi
    exact getD_append_lt _ _ i 0 (by rw [hblen]; omega)
  have hbe : toInt32 (be32 ((hb ++ pl).getD 4 0) ((hb ++ pl).getD 5 0)
      ((hb ++ pl).getD 6 0) ((hb ++ pl).getD 7 0)) = (L : ℤ) := by
    rw [hg 4 (by omega), hg 5 (by omega), hg 6 (by omega), hg 7 (by omega), ← hhb,
      ← declaredLen_def, hL, toInt32_small _ hsmall]
  rw [hbe]
  have hlenapp : ((hb ++ pl).length : ℤ) = 8 + (L : ℤ) := by
    rw [List.length_append, hblen, hplen]
    push_cast
    ring
  have hfin : (if (8 + (L : ℤ)) < 0
      then max (((hb ++ pl).length : ℤ) + (8 + (L : ℤ))) 0
      else min (8 + (L : ℤ)) (((hb ++ pl).length : ℤ)))
      = 8 + (L : ℤ) := by
    rw [if_neg (by push_cast; omega), hlenapp]
    omega
  rw [hfin]
  have hdrop : (hb ++ pl).drop 8 = pl := by
    rw [show (8 : Nat) = hb.length from hblen.symm, List.drop_left]
  have htkN : ((8 + (L : ℤ)) - 8).toNat = L := by omega
  have htake_pl : pl.take L = pl := by
    rw [← hplen]
    exact List.take_length _
  rw [htkN, hdrop, htake_pl]
  rw [if_neg (by omega)]

/-! ## Shape of encoder outputs -/

theorem encodeAudio_ok_shape (samples : List ℚ) (m : List Nat) (a : String)
    (out : List ℚ) (h : encodeAudio samples m a = .ok out) :
    ∀ x ∈ out, ∃ v : ℤ, x = ofPCM v := by
  intro x hx
  simp only [encodeAudio] at h
  split at h
  · exact absurd h (by simp)
  · obtain rfl : (embedPCM (samples.map toPCM)
        (bytesToBits (messageToBytes m))).map ofPCM = out := by
      simpa using h
    obtain ⟨v, _, rfl⟩ := List.mem_map.mp hx
    exact ⟨v, rfl⟩

theorem ofPCM_ne_offgrid (v : ℤ) : ofPCM v ≠ mkRat 1 131068 := by
  intro h
  rw [ofPCM_eq] at h
  rw [show mkRat (1 : ℤ) 131068 = ((1 : ℤ) : ℚ) / ((131068 : ℕ) : ℚ) from
    by exact_mod_cast Rat.mkRat_eq_div 1 131068] at h
  have h1 : (v : ℚ) * 131068 = 32767 := by
    field_simp at h
    linarith [h]
  have h2 : v * 131068 = 32767 := by exact_mod_cast h1
  omega

/-! ## Claim C1 -/

/-- C1, counterexample: the round trip is not exact for every text
payload within capacity.  The message consisting of the single UTF-16
code unit 256 has a framed bit count (81) within the eligible capacity
(96) of a 128-byte carrier, yet `toString(2)` gives that character nine
bits, the byte framing slips, and decoding does not return the
message. -/
theorem lsb_roundtrip_fails_on_wide_char :
    (stringToBinary ([256] ++ END_MARKER)).length ≤ eligibleCount (List.replicate 128 0)
    ∧ (encodeLSB (List.replicate 128 0) [256]).bind decodeLSB ≠ .ok [256] := by
  decide

/-- C1, amended: for byte-sized text (every UTF-16 code unit below 256,
with the sentinel first occurring at the end of the framed message) the
LSB round trip is exact whenever the framed bit count fits in the
eligible bytes; and for scalar-value Unicode text the sample-domain
audio round trip is exact whenever the framed bit count fits in the
sample count and no sample sits at the negative full-scale clamp. -/
theorem byte_text_roundtrip_lsb_and_audio :
    (∀ (data m : List Nat), (∀ c ∈ m, c < 256) →
      firstMarkerIdx (m ++ END_MARKER) = some m.length →
      8 * (m.length + 9) ≤ eligibleCount data →
      (encodeLSB data m).bind decodeLSB = .ok m)
    ∧ (∀ (samples : List ℚ) (m : List Nat) (a1 a2 : String),
      (∀ c ∈ m, isScalarValue c) →
      (utf8Encode m).length < 2147483648 →
      8 * (8 + (utf8Encode m).length) ≤ samples.length →
      (∀ x ∈ samples, toPCM x ≠ -32767) →
      (encodeAudio samples m a1).bind (fun c => decodeAudio c a2) = .ok m) := by
  constructor
  · intro data m hm hj hcap
    have h := decodeLSB_encodeLSB data m m.length hm hj hcap
    simpa using h
  · intro samples m a1 a2 h1 h2 h3 h4
    exact audio_roundtrip_core samples m a1 a2 h1 h2 h3 h4

/-- Witness for the amended C1 at concrete carriers and messages. -/
theorem byte_text_roundtrip_lsb_and_audio_witness :
    (encodeLSB (List.replicate 192 0) [72, 73]).bind decodeLSB = .ok [72, 73]
    ∧ (encodeAudio (List.replicate 128 0) [72] "audio_phase").bind
        (fun c => decodeAudio c "audio_phase") = .ok [72] := by
  constructor
  · exact byte_text_roundtrip_lsb_and_audio.1 (List.replicate 192 0) [72, 73]
      (by decide) (by decide) (by decide)
  · exact byte_text_roundtrip_lsb_and_audio.2 (List.replicate 128 0) [72]
      "audio_phase" "audio_phase" (by decide) (by decide) (by decide) (by decide)

/-! ## Claim C2 -/

/-- C2: the capacity gate of `encodeDWT` accepts the empty message on a
width-8, height-144 carrier (72 framed bits against the gate's
`⌊8·144/16⌋ = 72`), although only `3·⌊8/8⌋·⌊144/8⌋ = 54` 8×8 blocks
exist for `embedInDWT` to write to — the encoder does not reject a
message larger than the real block capacity, contradicting the claimed
`CapacityExceeded` behaviour; the embedding loop then stops after 54
bits and silently truncates the framed payload. -/
theorem encodeDWT_capacity_gate_overestimates :
    encodeDWTAccepts 8 144 [] = true
    ∧ dwtTotalBlocks 8 144 < (stringToBinary ([] ++ END_MARKER)).length := by
  decide

/-! ## Claim C3 -/

/-- C3: the capacity gate of `encodeLSB` compares the framed bit count
against the whole RGBA buffer length rather than the eligible
(non-alpha) byte count.  On an 80-byte buffer the empty message's 72
framed bits pass the gate (72 ≤ 80) although only 60 eligible bytes
exist; the embedding silently truncates the sentinel and the encoded
carrier no longer decodes. -/
theorem encodeLSB_capacity_gate_counts_alpha :
    (stringToBinary ([] ++ END_MARKER)).length ≤ (List.replicate 80 0).length
    ∧ eligibleCount (List.replicate 80 0) < (stringToBinary ([] ++ END_MARKER)).length
    ∧ (encodeLSB (List.replicate 80 0) []).bind decodeLSB
        = .error "No hidden message found in this image" := by
  decide

/-! ## Claim C4 -/

/-- C4, counterexample: a payload equal to the sentinel `"<<<END>>>"`
fits the carrier, but the decoder stops at the payload's own sentinel
bytes and returns the empty message instead of the payload. -/
theorem sentinel_payload_roundtrip_truncates :
    (stringToBinary (END_MARKER ++ END_MARKER)).length
        ≤ eligibleCount (List.replicate 192 0)
    ∧ (encodeLSB (List.replicate 192 0) END_MARKER).bind decodeLSB = .ok []
    ∧ END_MARKER ≠ [] := by
  decide

/-- C4, amended: the round trip is exact for the empty payload (image
LSB), and for the audio codec even when the payload contains the magic
bytes `'STGH'` as ordinary content (the length-prefixed header prevents
early termination); an image payload containing the sentinel is instead
truncated at the sentinel's first occurrence. -/
theorem empty_and_magic_payload_roundtrip :
    (∀ data : List Nat, 72 ≤ eligibleCount data →
      (encodeLSB data []).bind decodeLSB = .ok [])
    ∧ (∀ (samples : List ℚ) (rest : List Nat),
        (∀ c ∈ rest, isScalarValue c) →
        (utf8Encode ([83, 84, 71, 72] ++ rest)).length < 2147483648 →
        8 * (8 + (utf8Encode ([83, 84, 71, 72] ++ rest)).length) ≤ samples.length →
        (∀ x ∈ samples, toPCM x ≠ -32767) →
        (encodeAudio samples ([83, 84, 71, 72] ++ rest) "audio_phase").bind
          (fun c => decodeAudio c "audio_phase") = .ok ([83, 84, 71, 72] ++ rest))
    ∧ (∀ (data m : List Nat) (j : Nat), (∀ c ∈ m, c < 256) →
        firstMarkerIdx (m ++ END_MARKER) = some j → j < m.length →
        8 * (m.length + 9) ≤ eligibleCount data →
        (encodeLSB data m).bind decodeLSB = .ok (m.take j)) := by
  refine ⟨?_, ?_, ?_⟩
  · intro data hcap
    exact decodeLSB_encodeLSB data [] 0 (by simp) (by decide) (by simpa using hcap)
  · intro samples rest h1 h2 h3 h4
    refine audio_roundtrip_core samples ([83, 84, 71, 72] ++ rest) _ _ ?_ h2 h3 h4
    intro c hc
    rcases List.mem_append.mp hc with hc' | hc'
    · have : c = 83 ∨ c = 84 ∨ c = 71 ∨ c = 72 := by
        simpa using hc'
      rcases this with rfl | rfl | rfl | rfl <;> left <;> omega
    · exact h1 c hc'
  · intro data m j hm hj hjlt hcap
    exact decodeLSB_encodeLSB data m j hm hj hcap

/-- Witness for the amended C4 at concrete carriers and payloads. -/
theorem empty_and_magic_payload_roundtrip_witness :
    (encodeLSB (List.replicate 96 0) []).bind decodeLSB = .ok []
    ∧ (encodeAudio (List.replicate 192 0) [83, 84, 71, 72] "audio_phase").bind
        (fun c => decodeAudio c "audio_phase") = .ok [83, 84, 71, 72]
    ∧ (encodeLSB (List.replicate 256 0) (END_MARKER ++ [65])).bind decodeLSB = .ok [] := by
  refine ⟨?_, ?_, ?_⟩
  · exact empty_and_magic_payload_roundtrip.1 (List.replicate 96 0) (by decide)
  · exact (empty_and_magic_payload_roundtrip.2.1 (List.replicate 192 0) []
      (by decide) (by decide) (by decide) (by decide)).trans (by decide)
  · have h := empty_and_magic_payload_roundtrip.2.2 (List.replicate 256 0)
      (END_MARKER ++ [65]) 0 (by decide) (by decide) (by decide) (by decide)
    simpa using h

/-! ## Claim C5 -/

/-- C5, counterexample: requesting an audio algorithm for an image
carrier does not fail fast with an unsupported-combination error — the
encoder's `LSB | default` branch runs the LSB codec, and the decoder
falls through its image `switch` into the auto-detection chain, whose
first candidate is also the LSB codec. -/
theorem audio_algorithm_on_image_runs_lsb :
    encodeMessage (fun r => (.ok r : Except String Route)) .audio_phase .image = .ok .lsb
    ∧ decodeMessage (fun r => (.ok r : Except String Route)) (some .audio_phase) .image
        = .ok .lsb := ⟨rfl, rfl⟩

/-- C5, amended: an image algorithm requested for an audio carrier does
fail fast with the unsupported-algorithm error, but an audio algorithm
requested for an image carrier is routed to the LSB encoder by
`encodeMessage` and to the LSB → DCT → DWT auto-detection chain by
`decodeMessage`. -/
theorem dispatch_mismatch_behaviour (α : Type) (codec : Route → Except String α) :
    (encodeMessage codec .audio_phase .image = codec .lsb)
    ∧ (encodeMessage codec .audio_echo .image = codec .lsb)
    ∧ (decodeMessage codec (some .audio_phase) .image
        = tryCandidates [codec .lsb, codec .dct, codec .dwt])
    ∧ (decodeMessage codec (some .audio_echo) .image
        = tryCandidates [codec .lsb, codec .dct, codec .dwt])
    ∧ (encodeMessage codec .lsb .audio = .error "Unsupported algorithm lsb for audio files")
    ∧ (encodeMessage codec .dct .audio = .error "Unsupported algorithm dct for audio files")
    ∧ (encodeMessage codec .dwt .audio = .error "Unsupported algorithm dwt for audio files")
    ∧ (decodeMessage codec (some .lsb) .audio
        = .error "Unsupported algorithm lsb for audio files")
    ∧ (decodeMessage codec (some .dct) .audio
        = .error "Unsupported algorithm dct for audio files")
    ∧ (decodeMessage codec (some .dwt) .audio
        = .error "Unsupported algorithm dwt for audio files") :=
  ⟨rfl, rfl, rfl, rfl, rfl, rfl, rfl, rfl, rfl, rfl⟩

/-! ## Claim C6 -/

/-- C6, counterexample: decoding with the echo variant a carrier
encoded with the phase variant does not fail — it succeeds and returns
the payload, because both variant strings select the identical
LSB-with-header codec. -/
theorem cross_variant_decode_succeeds :
    (encodeAudio (List.replicate 128 0) [65] "audio_phase").bind
      (fun c => decodeAudio c "audio_echo") = .ok [65] := by
  decide

/-- C6, amended: decoding a carrier encoded with one audio variant
using the other variant's decoder succeeds and returns exactly the
original payload, in both directions, whenever the payload fits. -/
theorem cross_variant_roundtrip (samples : List ℚ) (m : List Nat)
    (h1 : ∀ c ∈ m, isScalarValue c)
    (h2 : (utf8Encode m).length < 2147483648)
    (h3 : 8 * (8 + (utf8Encode m).length) ≤ samples.length)
    (h4 : ∀ x ∈ samples, toPCM x ≠ -32767) :
    (encodeAudio samples m "audio_phase").bind
      (fun c => decodeAudio c "audio_echo") = .ok m
    ∧ (encodeAudio samples m "audio_echo").bind
      (fun c => decodeAudio c "audio_phase") = .ok m :=
  ⟨audio_roundtrip_core samples m "audio_phase" "audio_echo" h1 h2 h3 h4,
   audio_roundtrip_core samples m "audio_echo" "audio_phase" h1 h2 h3 h4⟩

/-- Witness for the amended C6 on a silence carrier. -/
theorem cross_variant_roundtrip_witness :
    (encodeAudio (List.replicate 96 0) [66] "audio_phase").bind
      (fun c => decodeAudio c "audio_echo") = .ok [66] :=
  (cross_variant_roundtrip (List.replicate 96 0) [66]
    (by decide) (by decide) (by decide) (by decide)).1

/-! ## Claim C7 -/

/-- C7: `decodeAudio` PCM-converts the first channel with
`round(clamp(x,-1,1)·32767)` (`toPCM`), fails with the
no-hidden-data error when the recovered header bytes do not start with
the magic `'STGH'`, otherwise reads the 4-byte big-endian length `L`
and fails with a corrupt-payload error (`capacity` or
`not-enough-bytes`) when `8·(8+L)` bits exceed the sample count, and
otherwise extracts exactly `L` payload bytes (MSB-first) and strictly
UTF-8-decodes them, failing on invalid byte sequences (the last clause
under the physical bound `numSamples < 2³⁴`, which every real audio
buffer satisfies; without it the source's signed 32-bit reading of `L`
cannot reach the extraction branch). -/
theorem decodeAudio_header_protocol (samples : List ℚ) (alg : String) :
    ((headerBytesOf (samples.map toPCM)).take 4 ≠ MAGIC →
      decodeAudio samples alg =
        .error "Could not extract message from this audio. Please ensure this file contains hidden data.")
    ∧ ((headerBytesOf (samples.map toPCM)).take 4 = MAGIC →
        samples.length < 8 * (8 + declaredLen (samples.map toPCM)) →
        decodeAudio samples alg = .error "Extracted message length exceeds audio capacity"
        ∨ decodeAudio samples alg = .error "Not enough bytes to contain header")
    ∧ ((headerBytesOf (samples.map toPCM)).take 4 = MAGIC →
        8 * (8 + declaredLen (samples.map toPCM)) ≤ samples.length →
        samples.length < 17179869184 →
        decodeAudio samples alg =
          match utf8DecodeStrict
              (payloadBytesOf (samples.map toPCM) (declaredLen (samples.map toPCM))) with
          | some s => .ok s
          | none => .error "Invalid UTF-8 data in decoded message") :=
  ⟨decodeAudio_magic_fail samples alg,
   decodeAudio_toolong samples alg,
   decodeAudio_ok_shape samples alg⟩

/-- Witness for C7 on a carrier whose LSBs spell the magic and a zero
payload length. -/
theorem decodeAudio_header_protocol_witness :
    decodeAudio ((bytesToBits (MAGIC ++ [0, 0, 0, 0])).map
      (fun b => if b then ofPCM 1 else 0)) "audio_phase" = .ok [] := by
  have h := (decodeAudio_header_protocol ((bytesToBits (MAGIC ++ [0, 0, 0, 0])).map
      (fun b => if b then ofPCM 1 else 0)) "audio_phase").2.2
    (by decide) (by decide) (by decide)
  rw [h]
  decide

/-! ## Claim C8 -/

/-- C8: with no algorithm given, `decodeMessage` for an image carrier
runs the candidate chain LSB, DCT, DWT in that order over the same
input, returns the first success, and reports the could-not-detect
error only after all three fail; for an audio carrier the phase variant
is tried before the echo variant likewise.  The codec outcomes are
abstracted as a function of the route, so the statement holds for every
behaviour of the five codecs; purity of the model gives each attempt
the same untouched carrier. -/
theorem decodeMessage_auto_detect_protocol (α : Type) (codec : Route → Except String α) :
    (decodeMessage codec none .image = tryCandidates [codec .lsb, codec .dct, codec .dwt])
    ∧ (∀ v, codec .lsb = .ok v → decodeMessage codec none .image = .ok v)
    ∧ (∀ e v, codec .lsb = .error e → codec .dct = .ok v →
        decodeMessage codec none .image = .ok v)
    ∧ (∀ e1 e2 v, codec .lsb = .error e1 → codec .dct = .error e2 → codec .dwt = .ok v →
        decodeMessage codec none .image = .ok v)
    ∧ (∀ e1 e2 e3, codec .lsb = .error e1 → codec .dct = .error e2 → codec .dwt = .error e3 →
        decodeMessage codec none .image
          = .error "Could not detect encoding algorithm. No hidden message found.")
    ∧ (decodeMessage codec none .audio = tryCandidates [codec .audioPhase, codec .audioEcho])
    ∧ (∀ v, codec .audioPhase = .ok v → decodeMessage codec none .audio = .ok v)
    ∧ (∀ e v, codec .audioPhase = .error e → codec .audioEcho = .ok v →
        decodeMessage codec none .audio = .ok v)
    ∧ (∀ e1 e2, codec .audioPhase = .error e1 → codec .audioEcho = .error e2 →
        decodeMessage codec none .audio
          = .error "Could not detect encoding algorithm. No hidden message found.") := by
  refine ⟨rfl, ?_, ?_, ?_, ?_, rfl, ?_, ?_, ?_⟩
  · intro v h
    simp [decodeMessage, tryCandidates, h]
  · intro e v h1 h2
    simp [decodeMessage, tryCandidates, h1, h2]
  · intro e1 e2 v h1 h2 h3
    simp [decodeMessage, tryCandidates, h1, h2, h3]
  · intro e1 e2 e3 h1 h2 h3
    simp [decodeMessage, tryCandidates, h1, h2, h3]
  · intro v h
    simp [decodeMessage, tryCandidates, h]
  · intro e v h1 h2
    simp [decodeMessage, tryCandidates, h1, h2]
  · intro e1 e2 h1 h2
    simp [decodeMessage, tryCandidates, h1, h2]

/-- Witness for C8: LSB fails, DCT succeeds, auto-detection returns the
DCT result. -/
theorem decodeMessage_auto_detect_protocol_witness :
    decodeMessage (fun r => match r with
      | .lsb => .error "no marker"
      | .dct => (.ok 5 : Except String Nat)
      | _ => .error "other") none .image = .ok 5 :=
  (decodeMessage_auto_detect_protocol Nat _).2.2.1 "no marker" 5 rfl rfl

/-! ## Claim C9 -/

/-- C9, counterexample: a carrier that no call to `encodeAudio` can
produce (its sample at index 64 is not of the `v/32767` form every
encoder output has), yet whose PCM LSBs happen to spell the magic
header — decoding it succeeds instead of failing with
no-hidden-data. -/
theorem never_encoded_audio_carrier_decodes :
    decodeAudio cEx "audio_phase" = .ok []
    ∧ ∀ (s : List ℚ) (m : List Nat) (a : String), encodeAudio s m a ≠ .ok cEx := by
  constructor
  · decide
  · intro s m a h
    have hmem : mkRat 1 131068 ∈ cEx := by decide
    obtain ⟨v, hv⟩ := encodeAudio_ok_shape s m a cEx h (mkRat 1 131068) hmem
    exact ofPCM_ne_offgrid v hv.symm

/-- C9, amended: decoding fails with the no-hidden-data error exactly
as the claim's own mechanism describes it — for the LSB decoder on any
carrier whose extracted bit stream contains no sentinel, and for the
audio decoder on any carrier whose first 32 PCM LSBs do not spell the
magic (true in particular of typical unmodified carriers such as
silence or zero images). -/
theorem unmarked_carrier_decode_fails :
    (∀ data : List Nat,
      firstMarkerIdx (binaryToString (extractLoop data 0)) = none →
      decodeLSB data = .error "No hidden message found in this image")
    ∧ (∀ (samples : List ℚ) (alg : String),
        (headerBytesOf (samples.map toPCM)).take 4 ≠ MAGIC →
        decodeAudio samples alg =
          .error "Could not extract message from this audio. Please ensure this file contains hidden data.") := by
  constructor
  · intro data h
    simp only [decodeLSB, h]
  · intro samples alg h
    exact decodeAudio_magic_fail samples alg h

/-- Witness for the amended C9 on zero carriers. -/
theorem unmarked_carrier_decode_fails_witness :
    decodeLSB (List.replicate 16 0) = .error "No hidden message found in this image"
    ∧ decodeAudio (List.replicate 16 0) "audio_phase" =
        .error "Could not extract message from this audio. Please ensure this file contains hidden data." :=
  ⟨unmarked_carrier_decode_fails.1 (List.replicate 16 0) (by decide),
   unmarked_carrier_decode_fails.2 (List.replicate 16 0) "audio_phase" (by decide)⟩

/-! ## Claim C10 -/

/-- C10: `encodeAudio` and `decodeAudio` never read their `algorithm`
argument — both advertised audio variants are the identical
LSB-with-header codec, so any two algorithm strings give identical
results. -/
theorem audio_variants_identical (samples : List ℚ) (m : List Nat) (a1 a2 : String) :
    encodeAudio samples m a1 = encodeAudio samples m a2
    ∧ decodeAudio samples a1 = decodeAudio samples a2 :=
  ⟨rfl, rfl⟩
